import Mathlib

/-!
# LinkedList.cpp: a singly linked list of bids with head, tail and size

Shallow embedding of `src/LinkedList.cpp`.

* A pointer `Node*` is an `Option Nat`: `none` is `nullptr`, `some a` is the
  address `a`.
* The free store is a list of cells indexed by address.  `new Node(bid)` takes
  the next unused address; `delete p` empties the cell at `p`.  A deleted
  address is never handed out again, so a pointer to a deleted node stays
  dangling.
* Reading or writing through `nullptr` or through a pointer to a deleted node
  is undefined behaviour in C++.  Every operation that dereferences returns an
  `Option`; `none` means that the call has no defined result.
* The `while` loops that walk the chain (`PrintList`, `Remove`, `Search`)
  carry a fuel argument.  The fuel handed to them is the number of cells of
  the free store, which is never exhausted on a chain that ends in `nullptr`
  (`Chain.length_le`).
* `int size` is an `Int`; wrap-around at `2^31` nodes is not modelled.
* `double amount` is only stored and copied by the list, never computed with.
  It is carried as an `Int` payload, `0` standing for `0.0`.
-/

namespace LinkedListCpp

/-! ## Data model -/

/-- Structure `Bid` of the source: identifier, title, fund and amount. -/
structure Bid where
  bidId : String
  title : String
  fund : String
  amount : Int
deriving DecidableEq

/-- Default constructor `Bid()`: the strings are empty and amount is `0.0`. -/
def Bid.init : Bid := { bidId := "", title := "", fund := "", amount := 0 }

/-- Pointer to a node: `none` is `nullptr`. -/
abbrev Ptr := Option Nat

/-- Structure `LinkedList::Node` of the source: a bid and the `next` pointer. -/
structure Node where
  bid : Bid
  next : Ptr
deriving DecidableEq

/-- Constructor `Node(Bid aBid)`: stores the bid, `next = nullptr`. -/
def Node.init (aBid : Bid) : Node := { bid := aBid, next := none }

/-- Free store: cell `a` holds `some n` while the node at address `a` is alive
and `none` once it has been deleted. -/
abbrev Heap := List (Option Node)

/-- Dereference `p`: `none` for `nullptr`, for a deleted node and for an
address that was never allocated. -/
def Heap.read (h : Heap) (p : Ptr) : Option Node :=
  match p with
  | none => none
  | some a => h[a]?.join

/-- Overwrite the node stored at address `a`. -/
def Heap.write (h : Heap) (a : Nat) (n : Node) : Heap := h.set a (some n)

/-- Expression `new Node(...)`: the node is placed at the next unused address. -/
def Heap.new (h : Heap) (n : Node) : Heap × Nat := (h ++ [some n], h.length)

/-- Statement `delete p` for `p = some a`. -/
def Heap.delete (h : Heap) (a : Nat) : Heap := h.set a none

/-- Class `LinkedList` of the source: the fields `head`, `tail`, `size`, and
the free store its nodes live in. -/
structure LinkedList where
  heap : Heap
  head : Ptr
  tail : Ptr
  size : Int
deriving DecidableEq

/-- What `Remove` prints: "List is empty. No bids to remove.",
"Bid ... removed successfully." or "Bid ... not found.". -/
inductive RemoveOutcome where
  | listEmpty
  | removed
  | notFound
deriving DecidableEq

namespace LinkedList

/-! ## Operations -/

/-- Constructor `LinkedList::LinkedList()`. -/
def init : LinkedList := { heap := [], head := none, tail := none, size := 0 }

/-- Method `LinkedList::Append`. -/
def Append (l : LinkedList) (bid : Bid) : Option LinkedList :=
  let (heap, newNode) := l.heap.new (Node.init bid)
  match l.head with
  | none =>
    some { heap := heap, head := some newNode, tail := some newNode, size := l.size + 1 }
  | some _ =>
    -- tail->next = newNode
    match heap.read l.tail, l.tail with
    | some t, some ta =>
      some { heap := heap.write ta { t with next := some newNode },
             head := l.head, tail := some newNode, size := l.size + 1 }
    | _, _ => none

/-- Method `LinkedList::Prepend`. -/
def Prepend (l : LinkedList) (bid : Bid) : LinkedList :=
  let (heap, newNode) := l.heap.new (Node.init bid)
  -- if (head != nullptr) newNode->next = head
  let heap := match l.head with
    | some _ => heap.write newNode { Node.init bid with next := l.head }
    | none => heap
  -- if (tail == nullptr) tail = newNode
  let tail := match l.tail with
    | none => some newNode
    | some t => some t
  { heap := heap, head := some newNode, tail := tail, size := l.size + 1 }

/-- Loop of `LinkedList::PrintList` from `current`: the bids it prints, in
order. -/
def PrintLoop (h : Heap) : Nat → Ptr → Option (List Bid)
  | _, none => some []
  | 0, some _ => none
  | fuel + 1, some a =>
    match h.read (some a) with
    | none => none
    | some n =>
      match PrintLoop h fuel n.next with
      | none => none
      | some rest => some (n.bid :: rest)

/-- Method `LinkedList::PrintList`: the bids printed, one line each, in the
order visited. -/
def PrintList (l : LinkedList) : Option (List Bid) :=
  PrintLoop l.heap l.heap.length l.head

/-- General case of `LinkedList::Remove`: the `while (current->next != nullptr)`
loop, entered with `current`. -/
def RemoveLoop (bidId : String) : Nat → LinkedList → Nat → Option (LinkedList × RemoveOutcome)
  | 0, _, _ => none
  | fuel + 1, l, current =>
    match l.heap.read (some current) with
    | none => none
    | some c =>
      match c.next with
      | none => some (l, RemoveOutcome.notFound)
      | some nx =>
        match l.heap.read (some nx) with
        | none => none
        | some n =>
          if n.bid.bidId = bidId then
            -- current->next = current->next->next; delete temp; size--
            some ({ l with heap := (l.heap.write current { c with next := n.next }).delete nx,
                           size := l.size - 1 }, RemoveOutcome.removed)
          else RemoveLoop bidId fuel l nx

/-- Method `LinkedList::Remove`. -/
def Remove (l : LinkedList) (bidId : String) : Option (LinkedList × RemoveOutcome) :=
  match l.head with
  | none => some (l, RemoveOutcome.listEmpty)
  | some hd =>
    match l.heap.read (some hd) with
    | none => none
    | some hn =>
      if hn.bid.bidId = bidId then
        -- head = head->next; delete temp; size--
        some ({ l with head := hn.next, heap := l.heap.delete hd, size := l.size - 1 },
              RemoveOutcome.removed)
      else RemoveLoop bidId l.heap.length l hd

/-- Loop of `LinkedList::Search` from `current`. -/
def SearchLoop (h : Heap) (bidId : String) : Nat → Ptr → Option Bid
  | _, none => some Bid.init
  | 0, some _ => none
  | fuel + 1, some a =>
    match h.read (some a) with
    | none => none
    | some n => if n.bid.bidId = bidId then some n.bid else SearchLoop h bidId fuel n.next

/-- Method `LinkedList::Search`. -/
def Search (l : LinkedList) (bidId : String) : Option Bid :=
  SearchLoop l.heap bidId l.heap.length l.head

/-- Method `LinkedList::Size`. -/
def Size (l : LinkedList) : Int := l.size

end LinkedList

/-! ## Calls issued by a driver -/

/-- One mutating call on the list. -/
inductive Call where
  | append (bid : Bid)
  | prepend (bid : Bid)
  | remove (bidId : String)
deriving DecidableEq

/-- Effect of one call on the list state. -/
def Call.apply (c : Call) (l : LinkedList) : Option LinkedList :=
  match c with
  | Call.append b => l.Append b
  | Call.prepend b => some (l.Prepend b)
  | Call.remove k => (l.Remove k).map Prod.fst

/-- Run the calls in order, starting from `l`. -/
def run : List Call → LinkedList → Option LinkedList
  | [], l => some l
  | c :: cs, l =>
    match c.apply l with
    | none => none
    | some l1 => run cs l1

/-- Bid with the given identifier and otherwise default fields. -/
def mkBid (bidId : String) : Bid := { Bid.init with bidId := bidId }

/-! ## Chains of nodes -/

/-- Predicate `Chain h p c`: following `next` links from `p` visits exactly
the live nodes listed in `c` (address and stored bid), in that order, and then
reaches `nullptr`. -/
def Chain (h : Heap) : Ptr → List (Nat × Bid) → Prop
  | p, [] => p = none
  | p, (a, b) :: rest =>
    p = some a ∧ ∃ n, h.read (some a) = some n ∧ n.bid = b ∧ Chain h n.next rest

/-- Predicate on bids: the identifier equals `key`. -/
def hasId (key : String) (b : Bid) : Bool := decide (b.bidId = key)

/-- Outcome of `Remove` on a list whose records are `bs`. -/
def removeOutcome (key : String) (bs : List Bid) : RemoveOutcome :=
  match bs with
  | [] => RemoveOutcome.listEmpty
  | _ :: _ => if bs.any (hasId key) then RemoveOutcome.removed else RemoveOutcome.notFound

/-- Predicate `TailLast l`: the nodes reachable from head form a chain ending
in `nullptr`, and either the list is empty or `tail` points to the last node
of that chain. -/
def TailLast (l : LinkedList) : Prop :=
  ∃ c, Chain l.heap l.head c ∧
    (c = [] ∨ ∃ pre ta bt, c = pre ++ [(ta, bt)] ∧ l.tail = some ta)

/-- Invariant `Inv l` of the states reached with defined behaviour: the nodes
reachable from head form a chain ending in `nullptr`, `size` is the number of
its nodes, `tail` is `nullptr` only while the list is empty, and otherwise
`tail` is an address that was allocated and is either the last node of the
chain or a node that has been deleted. -/
def Inv (l : LinkedList) : Prop :=
  ∃ c, Chain l.heap l.head c ∧ l.size = c.length ∧
    (l.tail = none → c = []) ∧
    (∀ ta, l.tail = some ta → ta < l.heap.length ∧
      ((∃ pre bt, c = pre ++ [(ta, bt)]) ∨ l.heap.read (some ta) = none))

/-- Predicate `WellFormed l`: the nodes reachable from head form a chain ending
in `nullptr`; head is `nullptr` iff tail is `nullptr` iff `size` is 0; `size`
is the number of nodes of the chain; and when the chain is not empty, `tail`
is its last node and that node has no successor. -/
def WellFormed (l : LinkedList) : Prop :=
  ∃ c, Chain l.heap l.head c ∧
    (l.head = none ↔ l.tail = none) ∧ (l.tail = none ↔ l.size = 0) ∧
    l.size = c.length ∧
    (c ≠ [] → ∃ pre ta bt t, c = pre ++ [(ta, bt)] ∧ l.tail = some ta ∧
      l.heap.read (some ta) = some t ∧ t.next = none)

/-! ## Counting calls -/

/-- The call is an `Append` or a `Prepend`. -/
def Call.isInsert : Call → Bool
  | Call.append _ => true
  | Call.prepend _ => true
  | Call.remove _ => false

/-- Number of `Append` and `Prepend` calls in the sequence. -/
def insertCalls (cs : List Call) : Nat := cs.countP Call.isInsert

/-- The call, issued in state `l`, is a `Remove` that reports "removed". -/
def Call.removes (c : Call) (l : LinkedList) : Bool :=
  match c with
  | Call.remove k => decide ((l.Remove k).map Prod.snd = some RemoveOutcome.removed)
  | _ => false

/-- Number of `Remove` calls that removed a node while the sequence runs from
`l`; a `Remove` on the empty list or with a key that no node has counts as
zero. -/
def removedCalls : List Call → LinkedList → Nat
  | [], _ => 0
  | c :: cs, l =>
    (if c.removes l then 1 else 0) +
      (match c.apply l with
        | none => 0
        | some l1 => removedCalls cs l1)

/-! ## The sequence model of the specification -/

/-- Abstract effect of one call on a plain list of records, in the words of
the specification: Append adds at the end, Prepend adds at the front and
Remove erases the first element whose bidId equals the key. -/
def specApply : Call → List Bid → List Bid
  | Call.append b, bs => bs ++ [b]
  | Call.prepend b, bs => b :: bs
  | Call.remove k, bs => bs.eraseP (hasId k)

/-- Abstract run: the calls applied in order to a plain list of records. -/
def specRun : List Call → List Bid → List Bid
  | [], bs => bs
  | c :: cs, bs => specRun cs (specApply c bs)

/-! ## Read-only methods as calls on the object -/

/-- Loop of `LinkedList::Search` with the object passed along: the state the
call leaves and the bid it returns. -/
def LinkedList.SearchLoopCall (bidId : String) :
    Nat → LinkedList → Ptr → Option (LinkedList × Bid)
  | _, l, none => some (l, Bid.init)
  | 0, _, some _ => none
  | fuel + 1, l, some a =>
    match l.heap.read (some a) with
    | none => none
    | some n =>
      if n.bid.bidId = bidId then some (l, n.bid)
      else LinkedList.SearchLoopCall bidId fuel l n.next

/-- Method `LinkedList::Search` as a call on the object. -/
def LinkedList.SearchCall (l : LinkedList) (bidId : String) : Option (LinkedList × Bid) :=
  LinkedList.SearchLoopCall bidId l.heap.length l l.head

/-- Loop of `LinkedList::PrintList` with the object passed along: the state
the call leaves and the bids it prints. -/
def LinkedList.PrintLoopCall : Nat → LinkedList → Ptr → Option (LinkedList × List Bid)
  | _, l, none => some (l, [])
  | 0, _, some _ => none
  | fuel + 1, l, some a =>
    match l.heap.read (some a) with
    | none => none
    | some n =>
      match LinkedList.PrintLoopCall fuel l n.next with
      | none => none
      | some (l1, rest) => some (l1, n.bid :: rest)

/-- Method `LinkedList::PrintList` as a call on the object. -/
def LinkedList.PrintListCall (l : LinkedList) : Option (LinkedList × List Bid) :=
  LinkedList.PrintLoopCall l.heap.length l l.head

/-- Method `LinkedList::Size` as a call on the object. -/
def LinkedList.SizeCall (l : LinkedList) : LinkedList × Int := (l, l.size)

/-- Case 4 of `main`: `bid = bidList.Search(bidKey)`, then `displayBid(bid)`
when `!bid.bidId.empty()` and the "not found" message otherwise.  The result
is `some b` when `b` is displayed and `none` for the message. -/
def findCase (l : LinkedList) (bidKey : String) : Option (Option Bid) :=
  match l.Search bidKey with
  | none => none
  | some bid => if bid.bidId = "" then some none else some (some bid)

/-! ## Concrete lists -/

/-- State after `Append A; Append B; Prepend C` on a new list. -/
def listCAB : LinkedList :=
  { heap := [some ⟨mkBid "A", some 1⟩, some ⟨mkBid "B", none⟩, some ⟨mkBid "C", some 0⟩],
    head := some 2, tail := some 1, size := 3 }

/-! ## The free store -/

theorem Heap.read_none (h : Heap) : h.read none = none := rfl

theorem Heap.read_lt {h : Heap} {a : Nat} {n : Node} (hr : h.read (some a) = some n) :
    a < h.length := by
  by_contra hlt
  have : h[a]? = none := List.getElem?_eq_none (by omega)
  simp [Heap.read, this] at hr

theorem Heap.length_write (h : Heap) (a : Nat) (n : Node) :
    (h.write a n).length = h.length := by
  simp [Heap.write]

theorem Heap.length_delete (h : Heap) (a : Nat) : (h.delete a).length = h.length := by
  simp [Heap.delete]

theorem Heap.read_write_same {h : Heap} {a : Nat} (n : Node) (ha : a < h.length) :
    (h.write a n).read (some a) = some n := by
  simp [Heap.read, Heap.write, ha]

theorem Heap.read_write_ne (h : Heap) {a b : Nat} (n : Node) (hab : a ≠ b) :
    (h.write a n).read (some b) = h.read (some b) := by
  simp [Heap.read, Heap.write, List.getElem?_set_ne hab]

theorem Heap.read_delete_same (h : Heap) (a : Nat) : (h.delete a).read (some a) = none := by
  by_cases ha : a < h.length
  · simp [Heap.read, Heap.delete, ha]
  · have : (h.set a none)[a]? = none := List.getElem?_eq_none (by simp; omega)
    simp [Heap.read, Heap.delete, this]

theorem Heap.read_delete_ne (h : Heap) {a b : Nat} (hab : a ≠ b) :
    (h.delete a).read (some b) = h.read (some b) := by
  simp [Heap.read, Heap.delete, List.getElem?_set_ne hab]

theorem Heap.read_new_old (h : Heap) (x : Node) {a : Nat} (ha : a < h.length) :
    (h.new x).1.read (some a) = h.read (some a) := by
  simp [Heap.read, Heap.new, List.getElem?_append_left ha]

theorem Heap.read_new_self (h : Heap) (x : Node) :
    (h.new x).1.read (some h.length) = some x := by
  simp [Heap.read, Heap.new]

/-! ## Chains: frame, determinism, distinct addresses -/

theorem Chain.nil_iff (h : Heap) (p : Ptr) : Chain h p [] ↔ p = none := by
  simp [Chain]

theorem Chain.cons_iff (h : Heap) (p : Ptr) (a : Nat) (b : Bid) (rest : List (Nat × Bid)) :
    Chain h p ((a, b) :: rest) ↔
      p = some a ∧ ∃ n, h.read (some a) = some n ∧ n.bid = b ∧ Chain h n.next rest := by
  simp [Chain]

theorem Chain.of_none {h : Heap} {c : List (Nat × Bid)} (hc : Chain h none c) : c = [] := by
  cases c with
  | nil => rfl
  | cons x rest =>
    obtain ⟨a, b⟩ := x
    rw [Chain.cons_iff] at hc
    exact absurd hc.1 (by simp)

/-- A chain is unchanged by a store update that leaves its nodes alone. -/
theorem Chain.frame {h h1 : Heap} {p : Ptr} {c : List (Nat × Bid)} (hc : Chain h p c)
    (hf : ∀ a ∈ c.map Prod.fst, h1.read (some a) = h.read (some a)) : Chain h1 p c := by
  induction c generalizing p with
  | nil => simpa [Chain] using hc
  | cons x rest ih =>
    obtain ⟨a, b⟩ := x
    rw [Chain.cons_iff] at hc ⊢
    obtain ⟨hp, n, hn, hb, hrest⟩ := hc
    refine ⟨hp, n, ?_, hb, ih hrest ?_⟩
    · rw [hf a (by simp)]; exact hn
    · intro a1 ha1
      exact hf a1 (by simp only [List.map_cons, List.mem_cons]; exact Or.inr ha1)

theorem Chain.lt {h : Heap} {p : Ptr} {c : List (Nat × Bid)} (hc : Chain h p c) :
    ∀ a ∈ c.map Prod.fst, a < h.length := by
  induction c generalizing p with
  | nil => simp
  | cons x rest ih =>
    obtain ⟨a, b⟩ := x
    rw [Chain.cons_iff] at hc
    obtain ⟨_, n, hn, _, hrest⟩ := hc
    intro a1 ha1
    simp only [List.map_cons, List.mem_cons] at ha1
    rcases ha1 with rfl | ha1
    · exact Heap.read_lt hn
    · exact ih hrest a1 ha1

/-- The chain from a pointer is determined by the store. -/
theorem Chain.functional {h : Heap} {p : Ptr} {c c1 : List (Nat × Bid)}
    (hc : Chain h p c) (hc1 : Chain h p c1) : c = c1 := by
  induction c generalizing p c1 with
  | nil =>
    rw [Chain.nil_iff] at hc
    subst hc
    exact (Chain.of_none hc1).symm
  | cons x rest ih =>
    obtain ⟨a, b⟩ := x
    rw [Chain.cons_iff] at hc
    obtain ⟨hp, n, hn, hb, hrest⟩ := hc
    subst hp
    cases c1 with
    | nil => rw [Chain.nil_iff] at hc1; exact absurd hc1 (by simp)
    | cons y rest1 =>
      obtain ⟨a1, b1⟩ := y
      rw [Chain.cons_iff] at hc1
      obtain ⟨hp1, n1, hn1, hb1, hrest1⟩ := hc1
      have ha : a = a1 := Option.some.inj hp1
      subst ha
      rw [hn] at hn1
      have hnn : n = n1 := Option.some.inj hn1
      subst hnn
      rw [ih hrest hrest1, ← hb, ← hb1]

/-- From any node of a chain the rest of the chain is again a chain, and it is
not longer. -/
theorem Chain.from_mem {h : Heap} {p : Ptr} {c : List (Nat × Bid)} (hc : Chain h p c)
    {a : Nat} (ha : a ∈ c.map Prod.fst) :
    ∃ c1, Chain h (some a) c1 ∧ c1.length ≤ c.length := by
  induction c generalizing p with
  | nil => simp at ha
  | cons x rest ih =>
    obtain ⟨a0, b0⟩ := x
    have hc0 := hc
    rw [Chain.cons_iff] at hc
    obtain ⟨hp, n, hn, hb, hrest⟩ := hc
    simp only [List.map_cons, List.mem_cons] at ha
    rcases ha with rfl | ha
    · subst hp
      exact ⟨_, hc0, le_refl _⟩
    · obtain ⟨c1, h1, hl⟩ := ih hrest ha
      exact ⟨c1, h1, by simp only [List.length_cons]; omega⟩

/-- The nodes of a chain have pairwise distinct addresses. -/
theorem Chain.nodup {h : Heap} {p : Ptr} {c : List (Nat × Bid)} (hc : Chain h p c) :
    (c.map Prod.fst).Nodup := by
  induction c generalizing p with
  | nil => simp
  | cons x rest ih =>
    obtain ⟨a, b⟩ := x
    have hc0 := hc
    rw [Chain.cons_iff] at hc
    obtain ⟨hp, n, hn, hb, hrest⟩ := hc
    subst hp
    simp only [List.map_cons, List.nodup_cons]
    refine ⟨?_, ih hrest⟩
    intro hmem
    obtain ⟨c1, h1, hl⟩ := Chain.from_mem hrest hmem
    have := Chain.functional hc0 h1
    rw [← this] at hl
    simp only [List.length_cons] at hl
    omega

/-- A chain has at most as many nodes as the store has cells. -/
theorem Chain.length_le {h : Heap} {p : Ptr} {c : List (Nat × Bid)} (hc : Chain h p c) :
    c.length ≤ h.length := by
  have hsub : c.map Prod.fst ⊆ List.range h.length := by
    intro a ha
    exact List.mem_range.mpr (Chain.lt hc a ha)
  have := (List.subperm_of_subset (Chain.nodup hc) hsub).length_le
  simpa using this

/-! ## The loops on a chain -/

theorem map_snd_eraseP (key : String) (c : List (Nat × Bid)) :
    (c.eraseP (fun x => hasId key x.2)).map Prod.snd = (c.map Prod.snd).eraseP (hasId key) := by
  induction c with
  | nil => rfl
  | cons x rest ih =>
    by_cases hx : hasId key x.2 = true
    · simp [List.eraseP_cons, hx]
    · simp [List.eraseP_cons, hx, ih]

theorem PrintLoop_of_chain {h : Heap} {p : Ptr} {c : List (Nat × Bid)} (hc : Chain h p c)
    {fuel : Nat} (hf : c.length ≤ fuel) :
    LinkedList.PrintLoop h fuel p = some (c.map Prod.snd) := by
  induction c generalizing p fuel with
  | nil =>
    rw [Chain.nil_iff] at hc
    subst hc
    cases fuel <;> rfl
  | cons x rest ih =>
    obtain ⟨a, b⟩ := x
    rw [Chain.cons_iff] at hc
    obtain ⟨hp, n, hn, hb, hrest⟩ := hc
    subst hp
    cases fuel with
    | zero => simp at hf
    | succ f =>
      have hf1 : rest.length ≤ f := by simpa using hf
      simp [LinkedList.PrintLoop, hn, ih hrest hf1, hb]

theorem chain_of_PrintLoop {h : Heap} {fuel : Nat} {p : Ptr} {bs : List Bid}
    (hp : LinkedList.PrintLoop h fuel p = some bs) :
    ∃ c, Chain h p c ∧ c.map Prod.snd = bs := by
  induction fuel generalizing p bs with
  | zero =>
    cases p with
    | none =>
      simp [LinkedList.PrintLoop] at hp
      exact ⟨[], by simp [Chain], by simpa using hp⟩
    | some a => simp [LinkedList.PrintLoop] at hp
  | succ f ih =>
    cases p with
    | none =>
      simp [LinkedList.PrintLoop] at hp
      exact ⟨[], by simp [Chain], by simpa using hp⟩
    | some a =>
      simp only [LinkedList.PrintLoop] at hp
      cases hn : h.read (some a) with
      | none => simp [hn] at hp
      | some n =>
        cases hr : LinkedList.PrintLoop h f n.next with
        | none => simp [hn, hr] at hp
        | some rest =>
          simp [hn, hr] at hp
          obtain ⟨c, hc, hm⟩ := ih hr
          refine ⟨(a, n.bid) :: c, ?_, ?_⟩
          · rw [Chain.cons_iff]
            exact ⟨rfl, n, hn, rfl, hc⟩
          · simp [hm, hp]

/-- The traversal prints `bs` exactly when the nodes reachable from head form
a chain that ends in `nullptr` and stores `bs`. -/
theorem PrintList_eq_some_iff (l : LinkedList) (bs : List Bid) :
    l.PrintList = some bs ↔ ∃ c, Chain l.heap l.head c ∧ c.map Prod.snd = bs := by
  constructor
  · intro hp
    exact chain_of_PrintLoop hp
  · rintro ⟨c, hc, hm⟩
    rw [← hm]
    exact PrintLoop_of_chain hc (Chain.length_le hc)

theorem SearchLoop_of_chain (key : String) {h : Heap} {p : Ptr} {c : List (Nat × Bid)}
    (hc : Chain h p c) {fuel : Nat} (hf : c.length ≤ fuel) :
    LinkedList.SearchLoop h key fuel p
      = some (((c.map Prod.snd).find? (hasId key)).getD Bid.init) := by
  induction c generalizing p fuel with
  | nil =>
    rw [Chain.nil_iff] at hc
    subst hc
    cases fuel <;> rfl
  | cons x rest ih =>
    obtain ⟨a, b⟩ := x
    rw [Chain.cons_iff] at hc
    obtain ⟨hp, n, hn, hb, hrest⟩ := hc
    subst hp
    cases fuel with
    | zero => simp at hf
    | succ f =>
      have hf1 : rest.length ≤ f := by simpa using hf
      by_cases hk : b.bidId = key
      · simp [LinkedList.SearchLoop, hn, hb, hk, hasId]
      · simp [LinkedList.SearchLoop, hn, hb, hk, hasId, ih hrest hf1]

/-- The general-case loop of `Remove`, entered at a node `current` whose
successors form the chain `rest`: it unlinks and deletes the first successor
whose identifier is `key`, and touches no cell outside `current :: rest`. -/
theorem RemoveLoop_of_chain (key : String) (h : Heap) (hd tl : Ptr) (sz : Int)
    (rest : List (Nat × Bid)) :
    ∀ (current : Nat) (b0 : Bid) (fuel : Nat),
      Chain h (some current) ((current, b0) :: rest) → rest.length < fuel →
      ∃ h1,
        LinkedList.RemoveLoop key fuel ⟨h, hd, tl, sz⟩ current
          = some (⟨h1, hd, tl, if (rest.map Prod.snd).any (hasId key) then sz - 1 else sz⟩,
                  if (rest.map Prod.snd).any (hasId key) then RemoveOutcome.removed
                  else RemoveOutcome.notFound) ∧
        Chain h1 (some current) ((current, b0) :: rest.eraseP (fun x => hasId key x.2)) ∧
        h1.length = h.length ∧
        ((rest.map Prod.snd).any (hasId key) = false → h1 = h) ∧
        (∀ a, a ≠ current → a ∉ rest.map Prod.fst → h1.read (some a) = h.read (some a)) ∧
        (∀ a ∈ rest.map Prod.fst, a ∉ (rest.eraseP (fun x => hasId key x.2)).map Prod.fst →
          h1.read (some a) = none) := by
  induction rest with
  | nil =>
    intro current b0 fuel hc hf
    have hc0 := hc
    rw [Chain.cons_iff] at hc
    obtain ⟨_, c, hcur, hb, hnil⟩ := hc
    rw [Chain.nil_iff] at hnil
    cases fuel with
    | zero => simp at hf
    | succ f =>
      refine ⟨h, ?_, hc0, rfl, fun _ => rfl, fun _ _ _ => rfl, by simp⟩
      simp [LinkedList.RemoveLoop, hcur, hnil]
  | cons x rest1 ih =>
    intro current b0 fuel hc hf
    obtain ⟨nx, b1⟩ := x
    have hnd := Chain.nodup hc
    have hc0 := hc
    rw [Chain.cons_iff] at hc
    obtain ⟨_, c, hcur, hb, hc1⟩ := hc
    have hc10 := hc1
    rw [Chain.cons_iff] at hc1
    obtain ⟨hnext, n, hn, hb1, hrest⟩ := hc1
    simp only [List.map_cons, List.nodup_cons, List.mem_cons, not_or] at hnd
    obtain ⟨⟨hne, hcur_rest⟩, hnx_rest, _⟩ := hnd
    cases fuel with
    | zero => simp at hf
    | succ f =>
      have hf1 : rest1.length < f := by simpa using hf
      by_cases hk : b1.bidId = key
      · -- the successor matches: unlink and delete it
        have hid : hasId key b1 = true := by simp [hasId, hk]
        refine ⟨(h.write current { c with next := n.next }).delete nx, ?_, ?_, ?_, ?_, ?_, ?_⟩
        · simp [LinkedList.RemoveLoop, hcur, hnext, hn, hb1, hk, hid]
        · simp only [List.eraseP_cons, hid, if_true]
          rw [Chain.cons_iff]
          refine ⟨rfl, { c with next := n.next }, ?_, hb, ?_⟩
          · rw [Heap.read_delete_ne _ (Ne.symm hne)]
            exact Heap.read_write_same _ (Heap.read_lt hcur)
          · refine Chain.frame hrest ?_
            intro a ha
            have h1 : nx ≠ a := fun e => hnx_rest (e ▸ ha)
            have h2 : current ≠ a := fun e => hcur_rest (e ▸ ha)
            rw [Heap.read_delete_ne _ h1, Heap.read_write_ne _ _ h2]
        · simp [Heap.length_delete, Heap.length_write]
        · simp [hid]
        · intro a ha hna
          simp only [List.map_cons, List.mem_cons, not_or] at hna
          rw [Heap.read_delete_ne _ (Ne.symm hna.1), Heap.read_write_ne _ _ (Ne.symm ha)]
        · intro a ha hna
          simp only [List.eraseP_cons, hid, if_true] at hna
          simp only [List.map_cons, List.mem_cons] at ha
          rcases ha with rfl | ha
          · exact Heap.read_delete_same _ _
          · exact absurd ha hna
      · -- the successor does not match: move on
        have hid : hasId key b1 = false := by simp [hasId, hk]
        obtain ⟨h1, hrun, hch, hlen, hsame, hframe, hdel⟩ := ih nx b1 f (hnext ▸ hc10) hf1
        have he : ((nx, b1) :: rest1).eraseP (fun x => hasId key x.2)
            = (nx, b1) :: rest1.eraseP (fun x => hasId key x.2) := by
          simp [List.eraseP_cons, hid]
        refine ⟨h1, ?_, ?_, hlen, ?_, ?_, ?_⟩
        · have hstep : LinkedList.RemoveLoop key (f + 1) ⟨h, hd, tl, sz⟩ current
              = LinkedList.RemoveLoop key f ⟨h, hd, tl, sz⟩ nx := by
            simp [LinkedList.RemoveLoop, hcur, hnext, hn, hb1, hk]
          rw [hstep, hrun]
          simp only [List.map_cons, List.any_cons, hid, Bool.false_or]
        · simp only [List.eraseP_cons, hid]
          rw [Chain.cons_iff]
          refine ⟨rfl, c, ?_, hb, ?_⟩
          · rw [hframe current hne hcur_rest]
            exact hcur
          · rw [hnext]
            simpa using hch
        · intro hnone
          apply hsame
          simpa [hid] using hnone
        · intro a ha hna
          simp only [List.map_cons, List.mem_cons, not_or] at hna
          exact hframe a hna.1 hna.2
        · intro a ha hna
          rw [he] at hna
          simp only [List.map_cons, List.mem_cons, not_or] at ha hna
          rcases ha with rfl | ha
          · exact absurd rfl hna.1
          · exact hdel a ha hna.2

/-! ## The operations on a chain -/

/-- Method `Remove` on a list whose nodes form the chain `c`: the first node
whose identifier is `key` is unlinked and deleted, `tail` is not touched, and
without such a node the state is returned as it was. -/
theorem Remove_of_chain (l : LinkedList) (key : String) {c : List (Nat × Bid)}
    (hc : Chain l.heap l.head c) :
    ∃ l1,
      l.Remove key = some (l1, removeOutcome key (c.map Prod.snd)) ∧
      Chain l1.heap l1.head (c.eraseP (fun x => hasId key x.2)) ∧
      l1.heap.length = l.heap.length ∧
      l1.tail = l.tail ∧
      l1.size = (if (c.map Prod.snd).any (hasId key) then l.size - 1 else l.size) ∧
      ((c.map Prod.snd).any (hasId key) = false → l1 = l) ∧
      (∀ a, a ∉ c.map Prod.fst → l1.heap.read (some a) = l.heap.read (some a)) ∧
      (∀ a ∈ c.map Prod.fst, a ∉ (c.eraseP (fun x => hasId key x.2)).map Prod.fst →
        l1.heap.read (some a) = none) := by
  obtain ⟨h, hd, tl, sz⟩ := l
  simp only at hc
  cases c with
  | nil =>
    rw [Chain.nil_iff] at hc
    subst hc
    exact ⟨⟨h, none, tl, sz⟩, by simp [LinkedList.Remove, removeOutcome], by simp [Chain],
      rfl, rfl, by simp, fun _ => rfl, fun _ _ => rfl, by simp⟩
  | cons x rest =>
    obtain ⟨a, b⟩ := x
    have hnd := Chain.nodup hc
    have hlen := Chain.length_le hc
    have hc0 := hc
    rw [Chain.cons_iff] at hc
    obtain ⟨hp, n, hn, hb, hrest⟩ := hc
    subst hp
    simp only [List.map_cons, List.nodup_cons] at hnd
    by_cases hk : b.bidId = key
    · have hid : hasId key b = true := by simp [hasId, hk]
      refine ⟨⟨h.delete a, n.next, tl, sz - 1⟩, ?_, ?_, ?_, rfl, ?_, ?_, ?_, ?_⟩
      · simp [LinkedList.Remove, removeOutcome, hn, hb, hk, hid]
      · simp only [List.eraseP_cons, hid, if_true]
        refine Chain.frame hrest ?_
        intro a1 ha1
        exact Heap.read_delete_ne _ (fun e => hnd.1 (e ▸ ha1))
      · simp [Heap.length_delete]
      · simp [hid]
      · simp [hid]
      · intro a1 ha1
        simp only [List.map_cons, List.mem_cons, not_or] at ha1
        exact Heap.read_delete_ne _ (Ne.symm ha1.1)
      · intro a1 ha1 hna1
        simp only [List.eraseP_cons, hid, if_true] at hna1
        simp only [List.map_cons, List.mem_cons] at ha1
        rcases ha1 with rfl | ha1
        · exact Heap.read_delete_same _ _
        · exact absurd ha1 hna1
    · have hid : hasId key b = false := by simp [hasId, hk]
      have hfuel : rest.length < h.length := by
        simp only [List.length_cons] at hlen
        omega
      obtain ⟨h1, hrun, hch, hl1, hsame, hframe, hdel⟩ :=
        RemoveLoop_of_chain key h (some a) tl sz rest a b h.length hc0 hfuel
      have he : ((a, b) :: rest).eraseP (fun x => hasId key x.2)
          = (a, b) :: rest.eraseP (fun x => hasId key x.2) := by
        simp [List.eraseP_cons, hid]
      refine ⟨⟨h1, some a, tl, if (rest.map Prod.snd).any (hasId key) then sz - 1 else sz⟩,
        ?_, ?_, hl1, rfl, ?_, ?_, ?_, ?_⟩
      · simp only [LinkedList.Remove, hn, hb, hk, if_false, hrun, removeOutcome, List.map_cons,
          List.any_cons, hid, Bool.false_or]
      · simpa only [List.eraseP_cons, hid] using hch
      · simp only [List.map_cons, List.any_cons, hid, Bool.false_or]
      · intro hnone
        simp only [List.map_cons, List.any_cons, hid, Bool.false_or] at hnone
        rw [hsame hnone]
        simp [hnone]
      · intro a1 ha1
        simp only [List.map_cons, List.mem_cons, not_or] at ha1
        exact hframe a1 ha1.1 ha1.2
      · intro a1 ha1 hna1
        rw [he] at hna1
        simp only [List.map_cons, List.mem_cons, not_or] at ha1 hna1
        rcases ha1 with rfl | ha1
        · exact absurd rfl hna1.1
        · exact hdel a1 ha1 hna1.2

/-- Method `Prepend` on a list whose nodes form the chain `c`: the new node is
placed in front of the chain. -/
theorem Prepend_of_chain (l : LinkedList) (r : Bid) {c : List (Nat × Bid)}
    (hc : Chain l.heap l.head c) :
    Chain (l.Prepend r).heap (l.Prepend r).head ((l.heap.length, r) :: c) ∧
    (l.Prepend r).size = l.size + 1 := by
  obtain ⟨h, hd, tl, sz⟩ := l
  simp only at hc
  have hlt := Chain.lt hc
  refine ⟨?_, rfl⟩
  rw [Chain.cons_iff]
  cases hd with
  | none =>
    have hnil := Chain.of_none hc
    subst hnil
    refine ⟨rfl, Node.init r, ?_, rfl, by simp [Chain, Node.init]⟩
    simp [LinkedList.Prepend, Heap.new, Heap.read]
  | some a0 =>
    refine ⟨rfl, { Node.init r with next := some a0 }, ?_, rfl, ?_⟩
    · simp [LinkedList.Prepend, Heap.new, Heap.read, Heap.write]
    · refine Chain.frame hc ?_
      intro a ha
      have hal : a < h.length := hlt a ha
      have hne : h.length ≠ a := by omega
      simp only [LinkedList.Prepend, Heap.new]
      rw [Heap.read_write_ne _ _ hne]
      exact Heap.read_new_old h (Node.init r) hal

/-- Linking a new node behind the last node of a chain extends the chain. -/
theorem Chain.snoc {h h2 : Heap} {ta nw : Nat} {bt r : Bid} {t : Node}
    (ht : h.read (some ta) = some t)
    (h2t : h2.read (some ta) = some { t with next := some nw })
    (h2n : h2.read (some nw) = some (Node.init r))
    (pre : List (Nat × Bid)) :
    ∀ p, Chain h p (pre ++ [(ta, bt)]) →
      (∀ a ∈ pre.map Prod.fst, h2.read (some a) = h.read (some a)) →
      Chain h2 p (pre ++ [(ta, bt), (nw, r)]) := by
  induction pre with
  | nil =>
    intro p hc _
    simp only [List.nil_append] at hc ⊢
    rw [Chain.cons_iff] at hc ⊢
    obtain ⟨hp, n, hn, hb, _⟩ := hc
    rw [ht] at hn
    have hnt : t = n := Option.some.inj hn
    subst hnt
    refine ⟨hp, _, h2t, hb, ?_⟩
    rw [Chain.cons_iff]
    exact ⟨rfl, _, h2n, rfl, by simp [Chain, Node.init]⟩
  | cons x rest ih =>
    intro p hc hf
    obtain ⟨a, b⟩ := x
    simp only [List.cons_append] at hc ⊢
    rw [Chain.cons_iff] at hc ⊢
    obtain ⟨hp, n, hn, hb, hrest⟩ := hc
    refine ⟨hp, n, ?_, hb, ih _ hrest ?_⟩
    · rw [hf a (by simp)]
      exact hn
    · intro a1 ha1
      exact hf a1 (by simp only [List.map_cons, List.mem_cons]; exact Or.inr ha1)

/-- Method `Append` on an empty list: the new node becomes head and tail,
whatever `tail` held before. -/
theorem Append_of_empty (l : LinkedList) (r : Bid) (hh : l.head = none) :
    ∃ l1, l.Append r = some l1 ∧
      Chain l1.heap l1.head [(l.heap.length, r)] ∧
      l1.head = some l.heap.length ∧ l1.tail = some l.heap.length ∧
      l1.size = l.size + 1 := by
  obtain ⟨h, hd, tl, sz⟩ := l
  simp only at hh
  subst hh
  refine ⟨⟨h ++ [some (Node.init r)], some h.length, some h.length, sz + 1⟩, ?_, ?_,
    rfl, rfl, rfl⟩
  · simp [LinkedList.Append, Heap.new]
  · rw [Chain.cons_iff]
    exact ⟨rfl, Node.init r, by simp [Heap.read], rfl, by simp [Chain, Node.init]⟩

/-- Method `Append` on a non-empty list whose `tail` is the last node of the
chain from head: the new node is linked behind it and becomes the tail. -/
theorem Append_of_chain (l : LinkedList) (r : Bid) {pre : List (Nat × Bid)} {ta : Nat}
    {bt : Bid} (hc : Chain l.heap l.head (pre ++ [(ta, bt)])) (ht : l.tail = some ta) :
    ∃ l1, l.Append r = some l1 ∧
      Chain l1.heap l1.head (pre ++ [(ta, bt), (l.heap.length, r)]) ∧
      l1.head = l.head ∧ l1.tail = some l.heap.length ∧
      l1.size = l.size + 1 := by
  obtain ⟨h, hd, tl, sz⟩ := l
  simp only at hc ht
  subst ht
  have hlt := Chain.lt hc
  have hnd := Chain.nodup hc
  have hta : ta < h.length := hlt ta (by simp)
  obtain ⟨c1, hc1, _⟩ := Chain.from_mem hc (a := ta) (by simp)
  cases c1 with
  | nil => rw [Chain.nil_iff] at hc1; exact absurd hc1 (by simp)
  | cons y rest1 =>
    obtain ⟨a1, b1⟩ := y
    rw [Chain.cons_iff] at hc1
    obtain ⟨hta1, t, hrt, _, _⟩ := hc1
    have hta2 : ta = a1 := Option.some.inj hta1
    subst hta2
    have hhd : ∃ a0, hd = some a0 := by
      cases hd with
      | none =>
        have := Chain.of_none hc
        simp at this
      | some a0 => exact ⟨a0, rfl⟩
    obtain ⟨a0, rfl⟩ := hhd
    have hrt1 : (h ++ [some (Node.init r)]).read (some ta) = some t := by
      have := Heap.read_new_old h (Node.init r) hta
      rw [hrt] at this
      exact this
    refine ⟨⟨(h ++ [some (Node.init r)]).write ta { t with next := some h.length },
      some a0, some h.length, sz + 1⟩, ?_, ?_, rfl, rfl, rfl⟩
    · simp only [LinkedList.Append, Heap.new, hrt1]
    · refine Chain.snoc hrt ?_ ?_ pre (some a0) hc ?_
      · exact Heap.read_write_same _ (by simp; omega)
      · have hne0 : ta ≠ h.length := by omega
        rw [Heap.read_write_ne _ _ hne0]
        simpa [Heap.new] using Heap.read_new_self h (Node.init r)
      · intro a ha
        have hal : a < h.length := hlt a (by simp; exact Or.inl (by simpa using ha))
        have hne : ta ≠ a := by
          intro e
          subst e
          rw [List.map_append, List.nodup_append] at hnd
          exact hnd.2.2 ha (by simp)
        rw [Heap.read_write_ne _ _ hne]
        simpa [Heap.new] using Heap.read_new_old h (Node.init r) hal

/-! ## Lists of records -/

theorem exists_first_match {key : String} {bs : List Bid} (hm : ∃ b ∈ bs, b.bidId = key) :
    ∃ pre x post, bs = pre ++ x :: post ∧ x.bidId = key ∧ ∀ b ∈ pre, b.bidId ≠ key := by
  induction bs with
  | nil => simp at hm
  | cons y rest ih =>
    by_cases hy : y.bidId = key
    · exact ⟨[], y, rest, rfl, hy, by simp⟩
    · obtain ⟨b, hb, hbk⟩ := hm
      simp only [List.mem_cons] at hb
      rcases hb with rfl | hb
      · exact absurd hbk hy
      · obtain ⟨pre, x, post, he, hx, hpre⟩ := ih ⟨b, hb, hbk⟩
        refine ⟨y :: pre, x, post, by simp [he], hx, ?_⟩
        intro b1 hb1
        simp only [List.mem_cons] at hb1
        rcases hb1 with rfl | hb1
        · exact hy
        · exact hpre b1 hb1

theorem eraseP_first_match {key : String} (pre : List Bid) (x : Bid) (post : List Bid)
    (hx : x.bidId = key) (hpre : ∀ b ∈ pre, b.bidId ≠ key) :
    (pre ++ x :: post).eraseP (hasId key) = pre ++ post := by
  induction pre with
  | nil => simp [List.eraseP_cons, hasId, hx]
  | cons y rest ih =>
    have hy : y.bidId ≠ key := hpre y (by simp)
    have hrest : ∀ b ∈ rest, b.bidId ≠ key := fun b hb => hpre b (by simp [hb])
    simp [List.eraseP_cons, hasId, hy, ih hrest]

theorem find_first_match {key : String} (pre : List Bid) (x : Bid) (post : List Bid)
    (hx : x.bidId = key) (hpre : ∀ b ∈ pre, b.bidId ≠ key) :
    (pre ++ x :: post).find? (hasId key) = some x := by
  induction pre with
  | nil => simp [List.find?_cons, hasId, hx]
  | cons y rest ih =>
    have hy : y.bidId ≠ key := hpre y (by simp)
    have hrest : ∀ b ∈ rest, b.bidId ≠ key := fun b hb => hpre b (by simp [hb])
    simp only [List.cons_append, List.find?_cons, hasId, hy, decide_False]
    exact ih hrest

theorem find_no_match {key : String} {bs : List Bid} (hno : ∀ b ∈ bs, b.bidId ≠ key) :
    bs.find? (hasId key) = none := by
  rw [List.find?_eq_none]
  intro b hb
  simp [hasId, hno b hb]

theorem any_of_match {key : String} {bs : List Bid} (hm : ∃ b ∈ bs, b.bidId = key) :
    bs.any (hasId key) = true := by
  obtain ⟨b, hb, hk⟩ := hm
  rw [List.any_eq_true]
  exact ⟨b, hb, by simp [hasId, hk]⟩

theorem any_of_no_match {key : String} {bs : List Bid} (hno : ∀ b ∈ bs, b.bidId ≠ key) :
    bs.any (hasId key) = false := by
  rw [List.any_eq_false]
  intro b hb
  simp [hasId, hno b hb]

theorem removeOutcome_of_match {key : String} {bs : List Bid}
    (hm : ∃ b ∈ bs, b.bidId = key) : removeOutcome key bs = RemoveOutcome.removed := by
  cases bs with
  | nil => simp at hm
  | cons y rest => simp only [removeOutcome, any_of_match hm, if_true]

theorem removeOutcome_of_no_match {key : String} {bs : List Bid} (hne : bs ≠ [])
    (hno : ∀ b ∈ bs, b.bidId ≠ key) : removeOutcome key bs = RemoveOutcome.notFound := by
  cases bs with
  | nil => exact absurd rfl hne
  | cons y rest => simp [removeOutcome, any_of_no_match hno]

theorem countP_eraseP_of_one {key : String} {bs : List Bid}
    (h1 : bs.countP (hasId key) = 1) : ∀ b ∈ bs.eraseP (hasId key), b.bidId ≠ key := by
  induction bs with
  | nil => simp
  | cons y rest ih =>
    by_cases hy : hasId key y = true
    · simp only [List.eraseP_cons, hy, if_true]
      rw [List.countP_cons_of_pos _ _ hy] at h1
      have h0 : rest.countP (hasId key) = 0 := by omega
      rw [List.countP_eq_zero] at h0
      intro b hb
      have := h0 b hb
      simpa [hasId] using this
    · rw [List.countP_cons_of_neg _ _ hy] at h1
      have he : (y :: rest).eraseP (hasId key) = y :: rest.eraseP (hasId key) := by
        simp [List.eraseP_cons, hy]
      rw [he]
      intro b hb
      simp only [List.mem_cons] at hb
      rcases hb with rfl | hb
      · simpa [hasId] using hy
      · exact ih h1 b hb

theorem match_of_countP_one {key : String} {bs : List Bid}
    (h1 : bs.countP (hasId key) = 1) : ∃ b ∈ bs, b.bidId = key := by
  have hpos : 0 < bs.countP (hasId key) := by omega
  rw [List.countP_pos_iff] at hpos
  obtain ⟨b, hb, hk⟩ := hpos
  exact ⟨b, hb, by simpa [hasId] using hk⟩

/-! ## The operations on the sequence of records -/

/-- Method `Search` on a list whose records are `bs`. -/
theorem Search_of_PrintList {l : LinkedList} {bs : List Bid} (key : String)
    (hp : l.PrintList = some bs) :
    l.Search key = some ((bs.find? (hasId key)).getD Bid.init) := by
  obtain ⟨c, hc, hm⟩ := (PrintList_eq_some_iff l bs).mp hp
  rw [← hm]
  exact SearchLoop_of_chain key hc (Chain.length_le hc)

/-- Method `Remove` on a list whose records are `bs`. -/
theorem Remove_of_PrintList {l : LinkedList} {bs : List Bid} (key : String)
    (hp : l.PrintList = some bs) :
    ∃ l1,
      l.Remove key = some (l1, removeOutcome key bs) ∧
      l1.PrintList = some (bs.eraseP (hasId key)) ∧
      l1.tail = l.tail ∧
      l1.size = (if bs.any (hasId key) then l.size - 1 else l.size) ∧
      (bs.any (hasId key) = false → l1 = l) := by
  obtain ⟨c, hc, hm⟩ := (PrintList_eq_some_iff l bs).mp hp
  obtain ⟨l1, hr, hc1, _, ht, hs, hsame, _, _⟩ := Remove_of_chain l key hc
  rw [hm] at hr hs hsame
  refine ⟨l1, hr, ?_, ht, hs, hsame⟩
  rw [PrintList_eq_some_iff]
  exact ⟨_, hc1, by rw [map_snd_eraseP, hm]⟩

/-- Method `Prepend` on a list whose records are `bs`. -/
theorem Prepend_of_PrintList {l : LinkedList} {bs : List Bid} (r : Bid)
    (hp : l.PrintList = some bs) :
    (l.Prepend r).PrintList = some (r :: bs) ∧ (l.Prepend r).size = l.size + 1 := by
  obtain ⟨c, hc, hm⟩ := (PrintList_eq_some_iff l bs).mp hp
  obtain ⟨hc1, hs⟩ := Prepend_of_chain l r hc
  refine ⟨?_, hs⟩
  rw [PrintList_eq_some_iff]
  exact ⟨_, hc1, by simp [hm]⟩

/-- Method `Append` on a list whose records are `bs` and whose `tail` is the
last node (or which is empty): the call is defined and puts `r` at the end. -/
theorem Append_of_TailLast {l : LinkedList} {bs : List Bid} (r : Bid)
    (hp : l.PrintList = some bs) (ht : TailLast l) :
    ∃ l1, l.Append r = some l1 ∧ l1.PrintList = some (bs ++ [r]) ∧
      l1.size = l.size + 1 ∧ TailLast l1 := by
  obtain ⟨c0, hc0, hm⟩ := (PrintList_eq_some_iff l bs).mp hp
  obtain ⟨c, hc, hcase⟩ := ht
  have hcc : c0 = c := Chain.functional hc0 hc
  subst hcc
  rcases hcase with hnil | ⟨pre, ta, bt, he, htl⟩
  · subst hnil
    rw [Chain.nil_iff] at hc
    obtain ⟨l1, ha, hc1, _, htl1, hs⟩ := Append_of_empty l r hc
    refine ⟨l1, ha, ?_, hs, ?_⟩
    · rw [PrintList_eq_some_iff]
      exact ⟨_, hc1, by simp [← hm]⟩
    · exact ⟨_, hc1, Or.inr ⟨[], _, _, rfl, htl1⟩⟩
  · subst he
    obtain ⟨l1, ha, hc1, _, htl1, hs⟩ := Append_of_chain l r hc htl
    refine ⟨l1, ha, ?_, hs, ?_⟩
    · rw [PrintList_eq_some_iff]
      exact ⟨_, hc1, by simp [← hm]⟩
    · exact ⟨_, hc1, Or.inr ⟨pre ++ [(ta, bt)], l.heap.length, r, by simp, htl1⟩⟩

/-! ## The invariant of defined runs -/

theorem Chain.read_some {h : Heap} {p : Ptr} {c : List (Nat × Bid)} (hc : Chain h p c)
    {a : Nat} (ha : a ∈ c.map Prod.fst) : ∃ n, h.read (some a) = some n := by
  obtain ⟨c1, hc1, _⟩ := Chain.from_mem hc ha
  cases c1 with
  | nil => rw [Chain.nil_iff] at hc1; exact absurd hc1 (by simp)
  | cons y rest =>
    obtain ⟨a1, b1⟩ := y
    rw [Chain.cons_iff] at hc1
    obtain ⟨he, n, hn, _, _⟩ := hc1
    have : a = a1 := Option.some.inj he
    subst this
    exact ⟨n, hn⟩

theorem Prepend_heap_length (l : LinkedList) (r : Bid) :
    (l.Prepend r).heap.length = l.heap.length + 1 := by
  obtain ⟨h, hd, tl, sz⟩ := l
  cases hd <;> simp [LinkedList.Prepend, Heap.new, Heap.write]

theorem Prepend_read_old (l : LinkedList) (r : Bid) {a : Nat} (ha : a < l.heap.length) :
    (l.Prepend r).heap.read (some a) = l.heap.read (some a) := by
  obtain ⟨h, hd, tl, sz⟩ := l
  simp only at ha
  have hne : h.length ≠ a := by omega
  cases hd with
  | none => exact Heap.read_new_old h (Node.init r) ha
  | some a0 =>
    simp only [LinkedList.Prepend, Heap.new]
    rw [Heap.read_write_ne _ _ hne]
    exact Heap.read_new_old h (Node.init r) ha

theorem Append_heap_length {l l1 : LinkedList} {r : Bid} (ha : l.Append r = some l1) :
    l1.heap.length = l.heap.length + 1 := by
  obtain ⟨h, hd, tl, sz⟩ := l
  cases hd with
  | none =>
    simp only [LinkedList.Append, Heap.new, Option.some.injEq] at ha
    subst ha
    simp
  | some a0 =>
    simp only [LinkedList.Append, Heap.new] at ha
    split at ha
    · simp only [Option.some.injEq] at ha
      subst ha
      simp [Heap.write]
    · exact absurd ha (by simp)

/-- A defined `Append` on a non-empty list found a live node behind `tail`. -/
theorem Append_tail_live {l l1 : LinkedList} {r : Bid} (ha : l.Append r = some l1)
    (hh : l.head ≠ none) :
    ∃ ta t, l.tail = some ta ∧ (l.heap.new (Node.init r)).1.read (some ta) = some t := by
  obtain ⟨h, hd, tl, sz⟩ := l
  cases hd with
  | none => exact absurd rfl hh
  | some a0 =>
    simp only [LinkedList.Append] at ha
    split at ha
    · rename_i t ta hr
      exact ⟨ta, t, rfl, hr⟩
    · exact absurd ha (by simp)

theorem Inv_init : Inv LinkedList.init :=
  ⟨[], by simp [Chain, LinkedList.init], rfl, fun _ => rfl,
    fun ta hta => absurd hta (by simp [LinkedList.init])⟩

theorem Inv_Prepend {l : LinkedList} (r : Bid) (hi : Inv l) : Inv (l.Prepend r) := by
  obtain ⟨c, hc, hsz, htn, hts⟩ := hi
  obtain ⟨hc1, hs1⟩ := Prepend_of_chain l r hc
  refine ⟨_, hc1, ?_, ?_, ?_⟩
  · rw [hs1, hsz]
    simp
  · intro htl
    cases ht : l.tail <;> simp [LinkedList.Prepend, Heap.new, ht] at htl
  · intro ta hta
    rw [Prepend_heap_length]
    cases ht : l.tail with
    | none =>
      have hcn : c = [] := htn ht
      have : ta = l.heap.length := by
        simp [LinkedList.Prepend, Heap.new, ht] at hta
        exact hta.symm
      subst this
      exact ⟨by omega, Or.inl ⟨[], r, by simp [hcn]⟩⟩
    | some t0 =>
      have : ta = t0 := by
        simp [LinkedList.Prepend, Heap.new, ht] at hta
        exact hta.symm
      subst this
      obtain ⟨hlt, hcase⟩ := hts ta ht
      refine ⟨by omega, ?_⟩
      rcases hcase with ⟨pre, bt, he⟩ | hdead
      · exact Or.inl ⟨(l.heap.length, r) :: pre, bt, by simp [he]⟩
      · exact Or.inr (by rw [Prepend_read_old l r hlt]; exact hdead)

theorem Inv_Append {l l1 : LinkedList} {r : Bid} (hi : Inv l) (ha : l.Append r = some l1) :
    Inv l1 := by
  obtain ⟨c, hc, hsz, htn, hts⟩ := hi
  have hlen := Append_heap_length ha
  by_cases hh : l.head = none
  · obtain ⟨l2, ha2, hc2, _, ht2, hs2⟩ := Append_of_empty l r hh
    rw [ha] at ha2
    have : l1 = l2 := Option.some.inj ha2
    subst this
    have hcn : c = [] := by
      rw [hh] at hc
      exact Chain.of_none hc
    refine ⟨_, hc2, ?_, ?_, ?_⟩
    · rw [hs2, hsz, hcn]
      simp
    · intro htl
      rw [ht2] at htl
      exact absurd htl (by simp)
    · intro ta hta
      rw [ht2] at hta
      have : ta = l.heap.length := (Option.some.inj hta).symm
      subst this
      exact ⟨by omega, Or.inl ⟨[], r, rfl⟩⟩
  · obtain ⟨ta, t, htl, hr⟩ := Append_tail_live ha hh
    obtain ⟨hlt, hcase⟩ := hts ta htl
    rw [Heap.read_new_old l.heap (Node.init r) hlt] at hr
    rcases hcase with ⟨pre, bt, he⟩ | hdead
    · subst he
      obtain ⟨l2, ha2, hc2, _, ht2, hs2⟩ := Append_of_chain l r hc htl
      rw [ha] at ha2
      have : l1 = l2 := Option.some.inj ha2
      subst this
      refine ⟨_, hc2, ?_, ?_, ?_⟩
      · rw [hs2, hsz]
        simp only [List.length_append, List.length_cons, List.length_nil]
        push_cast
        ring
      · intro htl1
        rw [ht2] at htl1
        exact absurd htl1 (by simp)
      · intro ta1 hta1
        rw [ht2] at hta1
        have : ta1 = l.heap.length := (Option.some.inj hta1).symm
        subst this
        exact ⟨by omega, Or.inl ⟨pre ++ [(ta, bt)], r, by simp⟩⟩
    · rw [hdead] at hr
      exact absurd hr (by simp)

theorem Inv_Remove {l l1 : LinkedList} {key : String} {out : RemoveOutcome} (hi : Inv l)
    (hr : l.Remove key = some (l1, out)) : Inv l1 := by
  obtain ⟨c, hc, hsz, htn, hts⟩ := hi
  obtain ⟨l2, hr2, hc2, hlen, htl, hs2, hsame, hframe, hdel⟩ := Remove_of_chain l key hc
  rw [hr] at hr2
  have hl : l1 = l2 := (Prod.mk.inj (Option.some.inj hr2)).1
  subst hl
  by_cases hany : (c.map Prod.snd).any (hasId key) = true
  · -- a node was removed
    obtain ⟨x, hx, hpx⟩ : ∃ x ∈ c, hasId key x.2 = true := by
      rw [List.any_eq_true] at hany
      obtain ⟨b, hb, hpb⟩ := hany
      rw [List.mem_map] at hb
      obtain ⟨x, hx, rfl⟩ := hb
      exact ⟨x, hx, hpb⟩
    have hlen_c : (c.eraseP (fun x => hasId key x.2)).length = c.length - 1 :=
      List.length_eraseP_of_mem hx hpx
    have hpos : 0 < c.length := List.length_pos_of_mem hx
    refine ⟨_, hc2, ?_, ?_, ?_⟩
    · rw [hs2, hsz, hlen_c]
      simp only [hany, if_true]
      omega
    · intro htl1
      rw [htl] at htl1
      rw [htn htl1]
      rfl
    · intro ta hta
      rw [htl] at hta
      obtain ⟨hlt, hcase⟩ := hts ta hta
      rw [hlen]
      refine ⟨hlt, ?_⟩
      rcases hcase with ⟨pre, bt, he⟩ | hdead
      · subst he
        by_cases hpre : ∃ y ∈ pre, hasId key y.2 = true
        · obtain ⟨y, hy, hpy⟩ := hpre
          left
          refine ⟨pre.eraseP (fun x => hasId key x.2), bt, ?_⟩
          exact List.eraseP_append_left (p := fun x => hasId key x.2) hpy _ hy
        · right
          have hnone : ∀ y ∈ pre, ¬ (hasId key y.2 = true) := fun y hy hpy => hpre ⟨y, hy, hpy⟩
          have hlast : hasId key bt = true := by
            rcases List.mem_append.mp hx with hx1 | hx1
            · exact absurd hpx (hnone x hx1)
            · simp only [List.mem_singleton] at hx1
              subst hx1
              exact hpx
          have he : (pre ++ [(ta, bt)]).eraseP (fun x => hasId key x.2) = pre := by
            rw [List.eraseP_append_right _ hnone]
            simp [List.eraseP_cons, hlast]
          have hnd := Chain.nodup hc
          rw [List.map_append, List.nodup_append] at hnd
          apply hdel ta (by simp)
          rw [he]
          intro hmem
          exact hnd.2.2 hmem (by simp)
      · right
        have hnot : ta ∉ c.map Prod.fst := by
          intro hmem
          obtain ⟨n, hn⟩ := Chain.read_some hc hmem
          rw [hdead] at hn
          exact absurd hn (by simp)
        rw [hframe ta hnot]
        exact hdead
  · -- nothing was removed: the state is the one given
    have hfalse : (c.map Prod.snd).any (hasId key) = false := by
      simpa using hany
    rw [hsame hfalse]
    exact ⟨c, hc, hsz, htn, hts⟩

theorem Inv_apply {c : Call} {l l1 : LinkedList} (hi : Inv l) (ha : c.apply l = some l1) :
    Inv l1 := by
  cases c with
  | append b => exact Inv_Append hi ha
  | prepend b =>
    simp only [Call.apply, Option.some.injEq] at ha
    subst ha
    exact Inv_Prepend b hi
  | remove k =>
    simp only [Call.apply, Option.map_eq_some'] at ha
    obtain ⟨⟨l2, out⟩, hr, he⟩ := ha
    simp only at he
    subst he
    exact Inv_Remove hi hr

theorem Inv_run {cs : List Call} {l l1 : LinkedList} (hi : Inv l) (hr : run cs l = some l1) :
    Inv l1 := by
  induction cs generalizing l with
  | nil =>
    simp only [run, Option.some.injEq] at hr
    subst hr
    exact hi
  | cons c rest ih =>
    simp only [run] at hr
    cases ha : c.apply l with
    | none => simp [ha] at hr
    | some l2 =>
      simp only [ha] at hr
      exact ih (Inv_apply hi ha) hr

/-- In a state that satisfies the invariant the traversal from head is defined
and `size` is the number of records it yields. -/
theorem Inv.size_eq_length {l : LinkedList} (hi : Inv l) :
    ∃ bs, l.PrintList = some bs ∧ l.size = bs.length := by
  obtain ⟨c, hc, hsz, _, _⟩ := hi
  refine ⟨c.map Prod.snd, ?_, by simpa using hsz⟩
  rw [PrintList_eq_some_iff]
  exact ⟨c, hc, rfl⟩

/-- Every state that a sequence of calls reaches from the new list with defined
behaviour has a defined traversal, and `Size()` is the number of records in
it. -/
theorem run_size_eq_length {cs : List Call} {l : LinkedList}
    (hr : run cs LinkedList.init = some l) :
    ∃ bs, l.PrintList = some bs ∧ l.Size = bs.length :=
  (Inv_run Inv_init hr).size_eq_length

/-! ## Size bookkeeping of the calls -/

theorem Append_size {l l1 : LinkedList} {r : Bid} (ha : l.Append r = some l1) :
    l1.size = l.size + 1 := by
  obtain ⟨h, hd, tl, sz⟩ := l
  cases hd with
  | none =>
    simp only [LinkedList.Append, Heap.new, Option.some.injEq] at ha
    subst ha
    rfl
  | some a0 =>
    simp only [LinkedList.Append, Heap.new] at ha
    split at ha
    · simp only [Option.some.injEq] at ha
      subst ha
      rfl
    · exact absurd ha (by simp)

theorem RemoveLoop_size (key : String) (fuel : Nat) :
    ∀ (l : LinkedList) (current : Nat) (l1 : LinkedList) (out : RemoveOutcome),
      LinkedList.RemoveLoop key fuel l current = some (l1, out) →
      l1.size = l.size - (if out = RemoveOutcome.removed then 1 else 0) := by
  induction fuel with
  | zero =>
    intro l current l1 out hr
    simp [LinkedList.RemoveLoop] at hr
  | succ f ih =>
    intro l current l1 out hr
    simp only [LinkedList.RemoveLoop] at hr
    split at hr
    · exact absurd hr (by simp)
    · split at hr
      · simp only [Option.some.injEq, Prod.mk.injEq] at hr
        obtain ⟨h1, h2⟩ := hr
        subst h1 h2
        simp
      · split at hr
        · exact absurd hr (by simp)
        · split at hr
          · simp only [Option.some.injEq, Prod.mk.injEq] at hr
            obtain ⟨h1, h2⟩ := hr
            subst h1 h2
            simp
          · exact ih l _ l1 out hr

theorem Remove_size {l l1 : LinkedList} {key : String} {out : RemoveOutcome}
    (hr : l.Remove key = some (l1, out)) :
    l1.size = l.size - (if out = RemoveOutcome.removed then 1 else 0) := by
  simp only [LinkedList.Remove] at hr
  split at hr
  · simp only [Option.some.injEq, Prod.mk.injEq] at hr
    obtain ⟨h1, h2⟩ := hr
    subst h1 h2
    simp
  · split at hr
    · exact absurd hr (by simp)
    · split at hr
      · simp only [Option.some.injEq, Prod.mk.injEq] at hr
        obtain ⟨h1, h2⟩ := hr
        subst h1 h2
        simp
      · exact RemoveLoop_size key _ l _ l1 out hr

/-- One call changes `size` by one for an insertion, by minus one for a
`Remove` that reports "removed", and not at all otherwise. -/
theorem apply_size {c : Call} {l l1 : LinkedList} (ha : c.apply l = some l1) :
    l1.size = l.size + (if c.isInsert then 1 else 0) - (if c.removes l then 1 else 0) := by
  cases c with
  | append b =>
    simp only [Call.apply] at ha
    simp [Call.isInsert, Call.removes, Append_size ha]
  | prepend b =>
    simp only [Call.apply, Option.some.injEq] at ha
    subst ha
    simp [Call.isInsert, Call.removes, LinkedList.Prepend, Heap.new]
  | remove k =>
    simp only [Call.apply, Option.map_eq_some'] at ha
    obtain ⟨⟨l2, out⟩, hr, he⟩ := ha
    simp only at he
    subst he
    rw [Remove_size hr]
    by_cases ho : out = RemoveOutcome.removed
    · simp [Call.isInsert, Call.removes, hr, ho]
    · simp [Call.isInsert, Call.removes, hr, ho]

/-- Along a run `size` grows by the number of insertions minus the number of
`Remove` calls that removed a node. -/
theorem run_size_count {cs : List Call} {l l1 : LinkedList} (hr : run cs l = some l1) :
    l1.size = l.size + insertCalls cs - removedCalls cs l := by
  induction cs generalizing l with
  | nil =>
    simp only [run, Option.some.injEq] at hr
    subst hr
    simp [insertCalls, removedCalls]
  | cons c rest ih =>
    simp only [run] at hr
    cases ha : c.apply l with
    | none => simp [ha] at hr
    | some l2 =>
      simp only [ha] at hr
      have h1 := ih hr
      have h2 := apply_size ha
      rw [h1, h2]
      by_cases hi : c.isInsert = true <;> by_cases hm : c.removes l = true <;>
        simp [insertCalls, removedCalls, ha, hi, hm, List.countP_cons] <;> omega

/-! ## Which calls are defined -/

/-- In a state that satisfies the invariant, `tail` is the last node unless it
points to a deleted node of a non-empty list. -/
theorem TailLast_or_dangling {l : LinkedList} (hi : Inv l) :
    TailLast l ∨ (l.head ≠ none ∧ l.heap.read l.tail = none) := by
  obtain ⟨c, hc, _, htn, hts⟩ := hi
  cases c with
  | nil => exact Or.inl ⟨[], hc, Or.inl rfl⟩
  | cons x rest =>
    have hh : l.head ≠ none := by
      intro he
      rw [he] at hc
      exact absurd (Chain.of_none hc) (by simp)
    cases ht : l.tail with
    | none => exact absurd (htn ht) (by simp)
    | some ta =>
      obtain ⟨_, hcase⟩ := hts ta ht
      rcases hcase with ⟨pre, bt, he⟩ | hdead
      · exact Or.inl ⟨_, hc, Or.inr ⟨pre, ta, bt, he, ht⟩⟩
      · exact Or.inr ⟨hh, hdead⟩

/-- A defined `Append` in a state that satisfies the invariant found `tail`
at the last node (or the list empty). -/
theorem TailLast_of_Append {l l1 : LinkedList} {r : Bid} (hi : Inv l)
    (ha : l.Append r = some l1) : TailLast l := by
  rcases TailLast_or_dangling hi with ht | ⟨hh, hdead⟩
  · exact ht
  · obtain ⟨ta, t, htl, hr⟩ := Append_tail_live ha hh
    obtain ⟨c, _, _, _, hts⟩ := hi
    obtain ⟨hlt, _⟩ := hts ta htl
    rw [Heap.read_new_old l.heap (Node.init r) hlt, ← htl, hdead] at hr
    exact absurd hr (by simp)

/-- In a state that satisfies the invariant the only call without a defined
result is an `Append` on a non-empty list whose `tail` node has been
deleted. -/
theorem apply_none_of_Inv {c : Call} {l : LinkedList} (hi : Inv l) (ha : c.apply l = none) :
    ∃ r, c = Call.append r ∧ l.head ≠ none ∧ l.heap.read l.tail = none := by
  cases c with
  | append b =>
    rcases TailLast_or_dangling hi with ht | hd
    · obtain ⟨bs, hp, _⟩ := hi.size_eq_length
      obtain ⟨l1, ha1, _⟩ := Append_of_TailLast b hp ht
      simp only [Call.apply] at ha
      rw [ha1] at ha
      exact absurd ha (by simp)
    · exact ⟨b, rfl, hd⟩
  | prepend b => simp [Call.apply] at ha
  | remove k =>
    obtain ⟨cc, hc, _⟩ := hi
    obtain ⟨l1, hr, _⟩ := Remove_of_chain l k hc
    simp [Call.apply, hr] at ha

/-- A run from the invariant is undefined only at an `Append` issued on a
non-empty list whose `tail` node has been deleted. -/
theorem run_none_of_Inv {cs : List Call} {l : LinkedList} (hi : Inv l)
    (hr : run cs l = none) :
    ∃ pre r rest l1, cs = pre ++ Call.append r :: rest ∧ run pre l = some l1 ∧
      l1.head ≠ none ∧ l1.heap.read l1.tail = none := by
  induction cs generalizing l with
  | nil => simp [run] at hr
  | cons c rest ih =>
    simp only [run] at hr
    cases ha : c.apply l with
    | none =>
      obtain ⟨r, hc, hh, hd⟩ := apply_none_of_Inv hi ha
      exact ⟨[], r, rest, l, by simp [hc], rfl, hh, hd⟩
    | some l2 =>
      simp only [ha] at hr
      obtain ⟨pre, r, rest1, l1, he, hrun, hh, hd⟩ := ih (Inv_apply hi ha) hr
      refine ⟨c :: pre, r, rest1, l1, by simp [he], ?_, hh, hd⟩
      simp only [run, ha]
      exact hrun

/-! ## Defined runs follow the sequence model -/

theorem apply_refines {c : Call} {l l1 : LinkedList} {bs : List Bid} (hi : Inv l)
    (hp : l.PrintList = some bs) (ha : c.apply l = some l1) :
    l1.PrintList = some (specApply c bs) := by
  cases c with
  | append b =>
    simp only [Call.apply] at ha
    obtain ⟨l2, ha2, hp2, _⟩ := Append_of_TailLast b hp (TailLast_of_Append hi ha)
    rw [ha] at ha2
    have : l1 = l2 := Option.some.inj ha2
    subst this
    exact hp2
  | prepend b =>
    simp only [Call.apply, Option.some.injEq] at ha
    subst ha
    exact (Prepend_of_PrintList b hp).1
  | remove k =>
    simp only [Call.apply, Option.map_eq_some'] at ha
    obtain ⟨⟨l2, out⟩, hr, he⟩ := ha
    simp only at he
    subst he
    obtain ⟨l3, hr3, hp3, _⟩ := Remove_of_PrintList k hp
    rw [hr] at hr3
    have : l2 = l3 := (Prod.mk.inj (Option.some.inj hr3)).1
    subst this
    exact hp3

theorem run_refines {cs : List Call} {l l1 : LinkedList} {bs : List Bid} (hi : Inv l)
    (hp : l.PrintList = some bs) (hr : run cs l = some l1) :
    l1.PrintList = some (specRun cs bs) := by
  induction cs generalizing l bs with
  | nil =>
    simp only [run, Option.some.injEq] at hr
    subst hr
    exact hp
  | cons c rest ih =>
    simp only [run] at hr
    cases ha : c.apply l with
    | none => simp [ha] at hr
    | some l2 =>
      simp only [ha] at hr
      exact ih (Inv_apply hi ha) (apply_refines hi hp ha) hr

/-! ## Well-formed lists and insertions -/

/-- The last node of a chain has no successor. -/
theorem Chain.last_next {h : Heap} {ta : Nat} {bt : Bid} (pre : List (Nat × Bid)) :
    ∀ p, Chain h p (pre ++ [(ta, bt)]) →
      ∃ t, h.read (some ta) = some t ∧ t.bid = bt ∧ t.next = none := by
  induction pre with
  | nil =>
    intro p hc
    simp only [List.nil_append] at hc
    rw [Chain.cons_iff] at hc
    obtain ⟨_, n, hn, hb, hrest⟩ := hc
    rw [Chain.nil_iff] at hrest
    exact ⟨n, hn, hb, hrest⟩
  | cons x rest ih =>
    intro p hc
    obtain ⟨a, b⟩ := x
    simp only [List.cons_append] at hc
    rw [Chain.cons_iff] at hc
    obtain ⟨_, n, _, _, hrest⟩ := hc
    exact ih _ hrest

theorem Chain.head_ne_none {h : Heap} {p : Ptr} {x : Nat × Bid} {rest : List (Nat × Bid)}
    (hc : Chain h p (x :: rest)) : p ≠ none := by
  intro he
  rw [he] at hc
  exact absurd (Chain.of_none hc) (by simp)

theorem WellFormed_init : WellFormed LinkedList.init :=
  ⟨[], by simp [Chain, LinkedList.init], by simp [LinkedList.init],
    by simp [LinkedList.init], rfl, fun h => absurd rfl h⟩

theorem WellFormed.tailLast {l : LinkedList} (hw : WellFormed l) : TailLast l := by
  obtain ⟨c, hc, _, _, _, hlast⟩ := hw
  cases c with
  | nil => exact ⟨[], hc, Or.inl rfl⟩
  | cons x rest =>
    obtain ⟨pre, ta, bt, _, he, ht, _⟩ := hlast (by simp)
    exact ⟨_, hc, Or.inr ⟨pre, ta, bt, he, ht⟩⟩

theorem WellFormed.inv {l : LinkedList} (hw : WellFormed l) : Inv l := by
  obtain ⟨c, hc, hht, hts, hsz, hlast⟩ := hw
  refine ⟨c, hc, hsz, ?_, ?_⟩
  · intro ht
    have h0 : l.size = 0 := hts.mp ht
    rw [hsz] at h0
    exact List.length_eq_zero.mp (by exact_mod_cast h0)
  · intro ta hta
    cases c with
    | nil =>
      have h0 : l.size = 0 := by rw [hsz]; rfl
      rw [hts.mpr h0] at hta
      exact absurd hta (by simp)
    | cons x rest =>
      obtain ⟨pre, ta1, bt, t, he, ht, hr, _⟩ := hlast (by simp)
      rw [ht] at hta
      have : ta1 = ta := Option.some.inj hta
      subst this
      exact ⟨Heap.read_lt hr, Or.inl ⟨pre, bt, he⟩⟩

theorem WellFormed.printList {l : LinkedList} (hw : WellFormed l) :
    ∃ bs, l.PrintList = some bs ∧ l.size = bs.length :=
  hw.inv.size_eq_length

/-- A non-empty chain with `tail` at its last node, `size` its length, gives a
well-formed list. -/
theorem WellFormed.of_chain {l : LinkedList} (pre : List (Nat × Bid)) {ta : Nat} {bt : Bid}
    (hc : Chain l.heap l.head (pre ++ [(ta, bt)])) (ht : l.tail = some ta)
    (hs : l.size = (pre ++ [(ta, bt)]).length) : WellFormed l := by
  obtain ⟨t, hr, _, hn⟩ := Chain.last_next pre _ hc
  have hpos : l.size ≠ 0 := by
    rw [hs]
    simp only [List.length_append, List.length_cons, List.length_nil]
    omega
  have hh : l.head ≠ none := by
    cases pre with
    | nil => exact Chain.head_ne_none hc
    | cons x rest => exact Chain.head_ne_none hc
  refine ⟨_, hc, ?_, ?_, hs, fun _ => ⟨pre, ta, bt, t, rfl, ht, hr, hn⟩⟩
  · simp [hh, ht]
  · simp [ht, hpos]

theorem WellFormed_Prepend {l : LinkedList} (r : Bid) (hw : WellFormed l) :
    WellFormed (l.Prepend r) := by
  obtain ⟨c, hc, hht, hts, hsz, hlast⟩ := hw
  obtain ⟨hc1, hs1⟩ := Prepend_of_chain l r hc
  cases c with
  | nil =>
    have h0 : l.size = 0 := by rw [hsz]; rfl
    have htl : l.tail = none := hts.mpr h0
    have ht1 : (l.Prepend r).tail = some l.heap.length := by
      simp [LinkedList.Prepend, Heap.new, htl]
    refine WellFormed.of_chain [] hc1 ht1 ?_
    rw [hs1, h0]
    rfl
  | cons x rest =>
    obtain ⟨pre, ta, bt, _, he, ht, _⟩ := hlast (by simp)
    have ht1 : (l.Prepend r).tail = some ta := by
      simp [LinkedList.Prepend, Heap.new, ht]
    rw [he] at hc1 hsz
    refine WellFormed.of_chain ((l.heap.length, r) :: pre) hc1 ht1 ?_
    rw [hs1, hsz]
    simp only [List.length_append, List.length_cons, List.length_nil, List.cons_append]
    push_cast
    ring

theorem WellFormed_Append {l : LinkedList} (r : Bid) (hw : WellFormed l) :
    ∃ l1, l.Append r = some l1 ∧ WellFormed l1 := by
  obtain ⟨c, hc, hht, hts, hsz, hlast⟩ := hw
  cases c with
  | nil =>
    rw [Chain.nil_iff] at hc
    obtain ⟨l1, ha, hc1, _, ht1, hs1⟩ := Append_of_empty l r hc
    refine ⟨l1, ha, WellFormed.of_chain [] hc1 ht1 ?_⟩
    rw [hs1, hsz]
    rfl
  | cons x rest =>
    obtain ⟨pre, ta, bt, _, he, ht, _⟩ := hlast (by simp)
    rw [he] at hc hsz
    obtain ⟨l1, ha, hc1, _, ht1, hs1⟩ := Append_of_chain l r hc ht
    have hc2 : Chain l1.heap l1.head ((pre ++ [(ta, bt)]) ++ [(l.heap.length, r)]) := by
      simpa using hc1
    refine ⟨l1, ha, WellFormed.of_chain (pre ++ [(ta, bt)]) hc2 ht1 ?_⟩
    rw [hs1, hsz]
    simp only [List.length_append, List.length_cons, List.length_nil]
    push_cast
    ring

/-- A run of insertions only, started in a well-formed list, is defined and
ends in a well-formed list. -/
theorem run_inserts_WellFormed {cs : List Call} {l : LinkedList} (hw : WellFormed l)
    (hins : ∀ c ∈ cs, c.isInsert = true) :
    ∃ l1, run cs l = some l1 ∧ WellFormed l1 := by
  induction cs generalizing l with
  | nil => exact ⟨l, rfl, hw⟩
  | cons c rest ih =>
    have hrest : ∀ c1 ∈ rest, c1.isInsert = true := fun c1 h1 => hins c1 (by simp [h1])
    have hc : c.isInsert = true := hins c (by simp)
    cases c with
    | append b =>
      obtain ⟨l1, ha, hw1⟩ := WellFormed_Append b hw
      obtain ⟨l2, hr, hw2⟩ := ih hw1 hrest
      exact ⟨l2, by simp only [run, Call.apply, ha]; exact hr, hw2⟩
    | prepend b =>
      obtain ⟨l2, hr, hw2⟩ := ih (WellFormed_Prepend b hw) hrest
      exact ⟨l2, by simp only [run, Call.apply]; exact hr, hw2⟩
    | remove k => simp [Call.isInsert] at hc

theorem specRun_appends (rs bs : List Bid) :
    specRun (rs.map Call.append) bs = bs ++ rs := by
  induction rs generalizing bs with
  | nil => simp [specRun]
  | cons r rest ih => simp [specRun, specApply, ih]

/-! ## Read-only calls -/

theorem SearchLoopCall_eq (key : String) (fuel : Nat) :
    ∀ (l : LinkedList) (p : Ptr),
      LinkedList.SearchLoopCall key fuel l p
        = (LinkedList.SearchLoop l.heap key fuel p).map (fun b => (l, b)) := by
  induction fuel with
  | zero =>
    intro l p
    cases p <;> simp [LinkedList.SearchLoopCall, LinkedList.SearchLoop]
  | succ f ih =>
    intro l p
    cases p with
    | none => simp [LinkedList.SearchLoopCall, LinkedList.SearchLoop]
    | some a =>
      simp only [LinkedList.SearchLoopCall, LinkedList.SearchLoop]
      cases hn : l.heap.read (some a) with
      | none => simp
      | some n =>
        by_cases hk : n.bid.bidId = key
        · simp [hk]
        · simp [hk, ih]

theorem PrintLoopCall_eq (fuel : Nat) :
    ∀ (l : LinkedList) (p : Ptr),
      LinkedList.PrintLoopCall fuel l p
        = (LinkedList.PrintLoop l.heap fuel p).map (fun bs => (l, bs)) := by
  induction fuel with
  | zero =>
    intro l p
    cases p <;> simp [LinkedList.PrintLoopCall, LinkedList.PrintLoop]
  | succ f ih =>
    intro l p
    cases p with
    | none => simp [LinkedList.PrintLoopCall, LinkedList.PrintLoop]
    | some a =>
      simp only [LinkedList.PrintLoopCall, LinkedList.PrintLoop]
      cases hn : l.heap.read (some a) with
      | none => simp
      | some n =>
        simp only []
        rw [ih l n.next]
        cases hr : LinkedList.PrintLoop l.heap f n.next <;> simp

theorem SearchCall_eq (l : LinkedList) (key : String) :
    l.SearchCall key = (l.Search key).map (fun b => (l, b)) :=
  SearchLoopCall_eq key _ l _

theorem PrintListCall_eq (l : LinkedList) :
    l.PrintListCall = l.PrintList.map (fun bs => (l, bs)) :=
  PrintLoopCall_eq _ l _

/-! ## Claims -/

/-- C1, evaluation of the code: after `Append A; Remove "A"` head is `nullptr`
and the size is 0, but tail still holds the address of the deleted node; after
`Append A; Append B; Remove "B"` the list is `[A]` with head at address 0,
while tail holds address 1, the deleted node. -/
theorem Remove_leaves_tail_dangling :
    (∃ l, run [Call.append (mkBid "A"), Call.remove "A"] LinkedList.init = some l ∧
      l.head = none ∧ l.Size = 0 ∧ l.tail = some 0 ∧ l.heap.read l.tail = none) ∧
    (∃ l, run [Call.append (mkBid "A"), Call.append (mkBid "B"), Call.remove "B"]
        LinkedList.init = some l ∧
      l.PrintList = some [mkBid "A"] ∧ l.head = some 0 ∧ l.Size = 1 ∧
      l.tail = some 1 ∧ l.heap.read l.tail = none) :=
  ⟨⟨⟨[none], none, some 0, 0⟩, by decide, rfl, rfl, rfl, rfl⟩,
   ⟨⟨[some ⟨mkBid "A", none⟩, none], some 0, some 1, 1⟩,
     by decide, by decide, rfl, rfl, rfl, rfl⟩⟩

/-- C2, evaluation of the code: `Append A; Append B; Append C; Remove "C"`
reaches a list `[A, B]` of size 2 whose tail is the deleted node, and the next
`Append D` writes through that pointer: the call has no defined result. -/
theorem Append_after_Remove_of_last_undefined :
    (∃ l, run [Call.append (mkBid "A"), Call.append (mkBid "B"), Call.append (mkBid "C"),
          Call.remove "C"] LinkedList.init = some l ∧
      l.PrintList = some [mkBid "A", mkBid "B"] ∧ l.Size = 2 ∧
      l.heap.read l.tail = none ∧ l.Append (mkBid "D") = none) ∧
    run [Call.append (mkBid "A"), Call.append (mkBid "B"), Call.append (mkBid "C"),
         Call.remove "C", Call.append (mkBid "D")] LinkedList.init = none :=
  ⟨⟨⟨[some ⟨mkBid "A", some 1⟩, some ⟨mkBid "B", none⟩, none], some 0, some 2, 2⟩,
     by decide, by decide, rfl, rfl, by decide⟩, by decide⟩

/-- C3: on a list whose traversal from head yields `bs` and that holds a record
with identifier `key`, `Remove key` reports "removed" and erases exactly the
first such record: `bs` splits as `pre ++ x :: post` where `x` is the first
record with that identifier, the traversal afterwards yields `pre ++ post`
(later records with the same identifier stay in `post`), and the size is
smaller by exactly one. -/
theorem Remove_erases_first_match (l : LinkedList) (key : String) (bs : List Bid)
    (hp : l.PrintList = some bs) (hm : ∃ b ∈ bs, b.bidId = key) :
    ∃ l1 pre x post,
      l.Remove key = some (l1, RemoveOutcome.removed) ∧
      bs = pre ++ x :: post ∧ x.bidId = key ∧ (∀ b ∈ pre, b.bidId ≠ key) ∧
      l1.PrintList = some (pre ++ post) ∧
      l1.Size = l.Size - 1 := by
  obtain ⟨l1, hr, hp1, _, hs, _⟩ := Remove_of_PrintList key hp
  obtain ⟨pre, x, post, he, hx, hpre⟩ := exists_first_match hm
  refine ⟨l1, pre, x, post, ?_, he, hx, hpre, ?_, ?_⟩
  · rw [hr, removeOutcome_of_match hm]
  · rw [hp1, he, eraseP_first_match pre x post hx hpre]
  · simp only [LinkedList.Size, hs, any_of_match hm, if_true]

/-- Witness for C3: `Append A; Append B; Prepend C` gives `[C, A, B]`, and
`Remove "A"` then gives `[C, B]` with size 2. -/
theorem Remove_erases_first_match_witness :
    run [Call.append (mkBid "A"), Call.append (mkBid "B"), Call.prepend (mkBid "C")]
        LinkedList.init = some listCAB ∧
    listCAB.PrintList = some [mkBid "C", mkBid "A", mkBid "B"] ∧
    (listCAB.Remove "A").map (fun q => (q.1.PrintList, q.1.Size, q.2))
      = some (some [mkBid "C", mkBid "B"], 2, RemoveOutcome.removed) ∧
    ∃ l1 pre x post,
      listCAB.Remove "A" = some (l1, RemoveOutcome.removed) ∧
      [mkBid "C", mkBid "A", mkBid "B"] = pre ++ x :: post ∧ x.bidId = "A" ∧
      (∀ b ∈ pre, b.bidId ≠ "A") ∧
      l1.PrintList = some (pre ++ post) ∧
      l1.Size = listCAB.Size - 1 :=
  ⟨by decide, by decide, by decide,
    Remove_erases_first_match listCAB "A" [mkBid "C", mkBid "A", mkBid "B"] (by decide)
      ⟨mkBid "A", by decide, by decide⟩⟩

/-- C4: on a list whose traversal from head yields `bs`, `Search key` returns
the first record in list order whose identifier is `key`; when no record has
that identifier, the empty list included, it returns the default-constructed
bid, whose identifier, title and fund are empty and whose amount is zero. -/
theorem Search_first_match_or_default (l : LinkedList) (key : String) (bs : List Bid)
    (hp : l.PrintList = some bs) :
    (∀ pre x post, bs = pre ++ x :: post → x.bidId = key → (∀ b ∈ pre, b.bidId ≠ key) →
      l.Search key = some x) ∧
    ((∀ b ∈ bs, b.bidId ≠ key) → l.Search key = some Bid.init) ∧
    Bid.init = { bidId := "", title := "", fund := "", amount := 0 } := by
  refine ⟨?_, ?_, rfl⟩
  · intro pre x post he hx hpre
    rw [Search_of_PrintList key hp, he, find_first_match pre x post hx hpre]
    rfl
  · intro hno
    rw [Search_of_PrintList key hp, find_no_match hno]
    rfl

/-- Witness for C4: in `[C, A, B]` the search for "A" returns `A`, the search
for "Z" returns the default bid, and so does any search in the new list. -/
theorem Search_first_match_or_default_witness :
    listCAB.PrintList = some [mkBid "C", mkBid "A", mkBid "B"] ∧
    listCAB.Search "A" = some (mkBid "A") ∧
    listCAB.Search "Z" = some Bid.init ∧
    LinkedList.init.Search "A" = some Bid.init :=
  ⟨by decide,
    (Search_first_match_or_default listCAB "A" [mkBid "C", mkBid "A", mkBid "B"]
      (by decide)).1 [mkBid "C"] (mkBid "A") [mkBid "B"] rfl rfl (by decide),
    (Search_first_match_or_default listCAB "Z" [mkBid "C", mkBid "A", mkBid "B"]
      (by decide)).2.1 (by decide),
    (Search_first_match_or_default LinkedList.init "A" [] (by decide)).2.1 (by simp)⟩

/-- C5, evaluation of the code: the list `[A]` reached by
`Append A; Append B; Remove "B"` has a dangling tail, and `Append C` on it has
no defined result, so `C` is not placed behind `A`. -/
theorem Append_on_reachable_list_undefined :
    ∃ l, run [Call.append (mkBid "A"), Call.append (mkBid "B"), Call.remove "B"]
        LinkedList.init = some l ∧
      l.PrintList = some [mkBid "A"] ∧ l.head ≠ none ∧
      l.heap.read l.tail = none ∧ l.Append (mkBid "C") = none :=
  ⟨⟨[some ⟨mkBid "A", none⟩, none], some 0, some 1, 1⟩,
    by decide, by decide, by decide, rfl, by decide⟩

/-- C6: on a list whose traversal from head yields `bs`, `Prepend r` yields a
list whose traversal is `r` followed by `bs` and whose size is larger by
exactly one. -/
theorem Prepend_inserts_front (l : LinkedList) (r : Bid) (bs : List Bid)
    (hp : l.PrintList = some bs) :
    (l.Prepend r).PrintList = some (r :: bs) ∧ (l.Prepend r).Size = l.Size + 1 :=
  Prepend_of_PrintList r hp

/-- Witness for C6: prepending `D` to `[C, A, B]`. -/
theorem Prepend_inserts_front_witness :
    listCAB.PrintList = some [mkBid "C", mkBid "A", mkBid "B"] ∧
    (listCAB.Prepend (mkBid "D")).PrintList
      = some [mkBid "D", mkBid "C", mkBid "A", mkBid "B"] ∧
    (listCAB.Prepend (mkBid "D")).Size = listCAB.Size + 1 :=
  ⟨by decide,
    Prepend_inserts_front listCAB (mkBid "D") [mkBid "C", mkBid "A", mkBid "B"] (by decide)⟩

/-- C7: on a non-empty list none of whose records has identifier `key`,
`Remove key` returns the state it was given (same store, head, tail and size,
hence the same traversal) and reports "not found", which is not the "removed"
outcome. -/
theorem Remove_not_found_unchanged (l : LinkedList) (key : String) (bs : List Bid)
    (hp : l.PrintList = some bs) (hne : bs ≠ []) (hno : ∀ b ∈ bs, b.bidId ≠ key) :
    ∃ l1 out,
      l.Remove key = some (l1, out) ∧
      out = RemoveOutcome.notFound ∧ out ≠ RemoveOutcome.removed ∧
      l1 = l ∧ l1.head = l.head ∧ l1.tail = l.tail ∧ l1.Size = l.Size ∧
      l1.PrintList = some bs := by
  obtain ⟨l1, hr, _, _, _, hsame⟩ := Remove_of_PrintList key hp
  have he : l1 = l := hsame (any_of_no_match hno)
  subst he
  refine ⟨l1, RemoveOutcome.notFound, ?_, rfl, by decide, rfl, rfl, rfl, rfl, hp⟩
  rw [hr, removeOutcome_of_no_match hne hno]

/-- Witness for C7: removing "Z" from `[C, A, B]`. -/
theorem Remove_not_found_unchanged_witness :
    ∃ l1 out,
      listCAB.Remove "Z" = some (l1, out) ∧
      out = RemoveOutcome.notFound ∧ out ≠ RemoveOutcome.removed ∧
      l1 = listCAB ∧ l1.head = listCAB.head ∧ l1.tail = listCAB.tail ∧
      l1.Size = listCAB.Size ∧
      l1.PrintList = some [mkBid "C", mkBid "A", mkBid "B"] :=
  Remove_not_found_unchanged listCAB "Z" [mkBid "C", mkBid "A", mkBid "B"] (by decide)
    (by simp) (by decide)

/-- C8: on an empty list (head is `nullptr`, size 0) `Remove key` changes
nothing: it reports the "list is empty" outcome, which is not "removed", head
stays `nullptr` and the size stays 0. -/
theorem Remove_on_empty_is_noop (l : LinkedList) (key : String) (hh : l.head = none)
    (hs : l.size = 0) :
    ∃ l1 out,
      l.Remove key = some (l1, out) ∧
      out = RemoveOutcome.listEmpty ∧ out ≠ RemoveOutcome.removed ∧
      l1 = l ∧ l1.head = none ∧ l1.Size = 0 ∧ l1.PrintList = some [] := by
  refine ⟨l, RemoveOutcome.listEmpty, ?_, rfl, by decide, rfl, hh, hs, ?_⟩
  · simp [LinkedList.Remove, hh]
  · rw [PrintList_eq_some_iff]
    exact ⟨[], by simp [Chain, hh], rfl⟩

/-- Witness for C8: `Remove "A"` on the newly constructed list. -/
theorem Remove_on_empty_is_noop_witness :
    ∃ l1 out,
      LinkedList.init.Remove "A" = some (l1, out) ∧
      out = RemoveOutcome.listEmpty ∧ out ≠ RemoveOutcome.removed ∧
      l1 = LinkedList.init ∧ l1.head = none ∧ l1.Size = 0 ∧ l1.PrintList = some [] :=
  Remove_on_empty_is_noop LinkedList.init "A" rfl rfl

/-- C9: on a list in which exactly one record has identifier `key`,
`Remove key` reports "removed", `Size()` is smaller by exactly one, and a
following `Search key` returns the default bid. -/
theorem Remove_unique_then_Search_absent (l : LinkedList) (key : String) (bs : List Bid)
    (hp : l.PrintList = some bs) (h1 : bs.countP (hasId key) = 1) :
    ∃ l1,
      l.Remove key = some (l1, RemoveOutcome.removed) ∧
      l1.Size = l.Size - 1 ∧
      l1.Search key = some Bid.init := by
  have hm := match_of_countP_one h1
  obtain ⟨l1, hr, hp1, _, hs, _⟩ := Remove_of_PrintList key hp
  refine ⟨l1, ?_, ?_, ?_⟩
  · rw [hr, removeOutcome_of_match hm]
  · simp only [LinkedList.Size, hs, any_of_match hm, if_true]
  · rw [Search_of_PrintList key hp1, find_no_match (countP_eraseP_of_one h1)]
    rfl

/-- Witness for C9: "A" occurs exactly once in `[C, A, B]`. -/
theorem Remove_unique_then_Search_absent_witness :
    [mkBid "C", mkBid "A", mkBid "B"].countP (hasId "A") = 1 ∧
    ∃ l1,
      listCAB.Remove "A" = some (l1, RemoveOutcome.removed) ∧
      l1.Size = listCAB.Size - 1 ∧
      l1.Search "A" = some Bid.init :=
  ⟨by decide,
    Remove_unique_then_Search_absent listCAB "A" [mkBid "C", mkBid "A", mkBid "B"]
      (by decide) (by decide)⟩

/-- C10 as stated fails: after `Append X1; Prepend X2`, two records with the
identifier "x", the call `Append R` with the same identifier is followed by a
`Search "x"` that returns `X2`, the first in list order, and not `X1`, the
first inserted. -/
theorem Search_after_Append_not_first_inserted :
    ∃ l l1,
      run [Call.append ⟨"x", "first", "", 0⟩, Call.prepend ⟨"x", "second", "", 0⟩]
        LinkedList.init = some l ∧
      l.Append ⟨"x", "third", "", 0⟩ = some l1 ∧
      l1.Search "x" = some ⟨"x", "second", "", 0⟩ ∧
      (⟨"x", "second", "", 0⟩ : Bid) ≠ ⟨"x", "first", "", 0⟩ :=
  ⟨⟨[some ⟨⟨"x", "first", "", 0⟩, none⟩, some ⟨⟨"x", "second", "", 0⟩, some 0⟩],
      some 1, some 0, 2⟩,
    ⟨[some ⟨⟨"x", "first", "", 0⟩, some 2⟩, some ⟨⟨"x", "second", "", 0⟩, some 0⟩,
      some ⟨⟨"x", "third", "", 0⟩, none⟩], some 1, some 2, 3⟩,
    by decide, by decide, by decide, by decide⟩

/-- C10 amended: on a list whose traversal from head yields `bs` and whose
tail is the last node (or which is empty), `Append r` is defined and a
following `Search r.bidId` returns `r` when no record of `bs` has that
identifier, and otherwise the first record of `bs` in list order that has
it. -/
theorem Append_then_Search_first_in_order (l : LinkedList) (r : Bid) (bs : List Bid)
    (hp : l.PrintList = some bs) (ht : TailLast l) :
    ∃ l1, l.Append r = some l1 ∧
      ((∀ b ∈ bs, b.bidId ≠ r.bidId) → l1.Search r.bidId = some r) ∧
      (∀ pre x post, bs = pre ++ x :: post → x.bidId = r.bidId →
        (∀ b ∈ pre, b.bidId ≠ r.bidId) → l1.Search r.bidId = some x) := by
  obtain ⟨l1, ha, hp1, _, _⟩ := Append_of_TailLast r hp ht
  refine ⟨l1, ha, ?_, ?_⟩
  · intro hno
    rw [Search_of_PrintList r.bidId hp1, find_first_match bs r [] rfl hno]
    rfl
  · intro pre x post he hx hpre
    rw [Search_of_PrintList r.bidId hp1, he]
    have : pre ++ x :: post ++ [r] = pre ++ x :: (post ++ [r]) := by simp
    rw [this, find_first_match pre x (post ++ [r]) hx hpre]
    rfl

/-- Witness for C10 amended: appending `D` to `[C, A, B]` and searching "D"
returns `D`; appending a second record with identifier "A" and searching "A"
returns the record that was already in the list. -/
theorem Append_then_Search_first_in_order_witness :
    listCAB.PrintList = some [mkBid "C", mkBid "A", mkBid "B"] ∧
    TailLast listCAB ∧
    (∃ l1, listCAB.Append (mkBid "D") = some l1 ∧ l1.Search "D" = some (mkBid "D")) ∧
    (∃ l1, listCAB.Append ⟨"A", "other", "", 0⟩ = some l1 ∧
      l1.Search "A" = some (mkBid "A")) := by
  have hp : listCAB.PrintList = some [mkBid "C", mkBid "A", mkBid "B"] := by decide
  have ht : TailLast listCAB :=
    ⟨[(2, mkBid "C"), (0, mkBid "A"), (1, mkBid "B")],
      by simp [Chain, listCAB, Heap.read],
      Or.inr ⟨[(2, mkBid "C"), (0, mkBid "A")], 1, mkBid "B", rfl, rfl⟩⟩
  refine ⟨hp, ht, ?_, ?_⟩
  · obtain ⟨l1, ha, h1, _⟩ :=
      Append_then_Search_first_in_order listCAB (mkBid "D") _ hp ht
    exact ⟨l1, ha, h1 (by decide)⟩
  · obtain ⟨l1, ha, _, h2⟩ :=
      Append_then_Search_first_in_order listCAB ⟨"A", "other", "", 0⟩ _ hp ht
    exact ⟨l1, ha, h2 [mkBid "C"] (mkBid "A") [mkBid "B"] rfl rfl (by decide)⟩

/-- C12: appending the records `rs` in order to the newly constructed list is
defined, the traversal from head then yields exactly `rs`, and `Size()` is the
number of records. -/
theorem Appends_keep_insertion_order (rs : List Bid) :
    ∃ l, run (rs.map Call.append) LinkedList.init = some l ∧
      l.PrintList = some rs ∧ l.Size = rs.length := by
  have hins : ∀ c ∈ rs.map Call.append, c.isInsert = true := by
    intro c hc
    rw [List.mem_map] at hc
    obtain ⟨r, _, rfl⟩ := hc
    rfl
  obtain ⟨l, hr, hw⟩ := run_inserts_WellFormed WellFormed_init hins
  have hp0 : LinkedList.init.PrintList = some [] := rfl
  have hp := run_refines Inv_init hp0 hr
  rw [specRun_appends, List.nil_append] at hp
  obtain ⟨bs, hp1, hs⟩ := hw.printList
  rw [hp] at hp1
  have : rs = bs := Option.some.inj hp1
  subst this
  exact ⟨l, hr, hp, hs⟩

/-- C13, evaluation of the code: removing the sole element of the one-element
list built by `Prepend A` leaves head `nullptr` and size 0, but tail keeps
the address of the deleted node. -/
theorem Remove_sole_element_keeps_tail :
    (LinkedList.init.Prepend (mkBid "A")).PrintList = some [mkBid "A"] ∧
    (LinkedList.init.Prepend (mkBid "A")).Remove "A"
      = some (⟨[none], none, some 0, 0⟩, RemoveOutcome.removed) ∧
    (⟨[none], none, some 0, 0⟩ : LinkedList).tail ≠ none :=
  ⟨by decide, by decide, by decide⟩

/-- C14: on a one-element list (traversal `[b]`, size 1) `Remove b.bidId`
leaves an empty list on which `Append r` is defined and gives what it gives on
a newly constructed list: the traversal is `[r]`, head and tail are the same
node, that node holds `r` and has no successor, and the size is 1. -/
theorem Append_after_removing_sole_element (l : LinkedList) (b r : Bid)
    (hp : l.PrintList = some [b]) (hs : l.Size = 1) :
    (∃ l1 l2,
      l.Remove b.bidId = some (l1, RemoveOutcome.removed) ∧
      l1.head = none ∧ l1.Size = 0 ∧
      l1.Append r = some l2 ∧
      l2.PrintList = some [r] ∧ l2.head = l2.tail ∧
      (∃ n, l2.heap.read l2.head = some n ∧ n.bid = r ∧ n.next = none) ∧
      l2.Size = 1) ∧
    (∃ l3,
      LinkedList.init.Append r = some l3 ∧
      l3.PrintList = some [r] ∧ l3.head = l3.tail ∧
      (∃ n, l3.heap.read l3.head = some n ∧ n.bid = r ∧ n.next = none) ∧
      l3.Size = 1) := by
  have key : ∀ l1 : LinkedList, l1.head = none → l1.size = 0 →
      ∃ l2, l1.Append r = some l2 ∧ l2.PrintList = some [r] ∧ l2.head = l2.tail ∧
        (∃ n, l2.heap.read l2.head = some n ∧ n.bid = r ∧ n.next = none) ∧
        l2.Size = 1 := by
    intro l1 hh h0
    obtain ⟨l2, ha, hc2, hh2, ht2, hs2⟩ := Append_of_empty l1 r hh
    refine ⟨l2, ha, ?_, by rw [hh2, ht2], ?_, by simp [LinkedList.Size, hs2, h0]⟩
    · rw [PrintList_eq_some_iff]
      exact ⟨_, hc2, rfl⟩
    · rw [Chain.cons_iff] at hc2
      obtain ⟨_, n, hn, hb, hnil⟩ := hc2
      rw [Chain.nil_iff] at hnil
      rw [hh2]
      exact ⟨n, hn, hb, hnil⟩
  have hm : ∃ x ∈ [b], x.bidId = b.bidId := ⟨b, by simp, rfl⟩
  obtain ⟨l1, hr, hp1, _, hs1, _⟩ := Remove_of_PrintList b.bidId hp
  rw [removeOutcome_of_match hm] at hr
  have hany : [b].any (hasId b.bidId) = true := any_of_match hm
  have he : [b].eraseP (hasId b.bidId) = [] := by
    simp [List.eraseP_cons, hasId]
  rw [he] at hp1
  have hh1 : l1.head = none := by
    obtain ⟨c, hc, hmap⟩ := (PrintList_eq_some_iff l1 []).mp hp1
    have : c = [] := by simpa using hmap
    subst this
    exact (Chain.nil_iff _ _).mp hc
  have h0 : l1.size = 0 := by
    rw [hs1]
    simp only [hany, if_true]
    have : l.size = 1 := hs
    omega
  obtain ⟨l2, hrest⟩ := key l1 hh1 h0
  exact ⟨⟨l1, l2, hr, hh1, h0, hrest⟩, key LinkedList.init rfl rfl⟩

/-- Witness for C14: the one-element list built by `Append A`, then
`Remove "A"` and `Append B`. -/
theorem Append_after_removing_sole_element_witness :
    (⟨[some ⟨mkBid "A", none⟩], some 0, some 0, 1⟩ : LinkedList).PrintList
      = some [mkBid "A"] ∧
    ((∃ l1 l2,
      (⟨[some ⟨mkBid "A", none⟩], some 0, some 0, 1⟩ : LinkedList).Remove (mkBid "A").bidId
        = some (l1, RemoveOutcome.removed) ∧
      l1.head = none ∧ l1.Size = 0 ∧
      l1.Append (mkBid "B") = some l2 ∧
      l2.PrintList = some [mkBid "B"] ∧ l2.head = l2.tail ∧
      (∃ n, l2.heap.read l2.head = some n ∧ n.bid = mkBid "B" ∧ n.next = none) ∧
      l2.Size = 1) ∧
    (∃ l3,
      LinkedList.init.Append (mkBid "B") = some l3 ∧
      l3.PrintList = some [mkBid "B"] ∧ l3.head = l3.tail ∧
      (∃ n, l3.heap.read l3.head = some n ∧ n.bid = mkBid "B" ∧ n.next = none) ∧
      l3.Size = 1)) :=
  ⟨by decide,
    Append_after_removing_sole_element _ (mkBid "A") (mkBid "B") (by decide) (by decide)⟩

/-- C15, evaluation of the code: in the list `[A, B]` built by
`Prepend B; Prepend A` the node `B` at address 0 is the tail and `A` at
address 1 its predecessor; `Remove "B"` sets the successor of `A` to `nullptr`
and deletes `B`, but tail keeps address 0 instead of address 1. -/
theorem Remove_of_tail_keeps_tail :
    run [Call.prepend (mkBid "B"), Call.prepend (mkBid "A")] LinkedList.init
      = some ⟨[some ⟨mkBid "B", none⟩, some ⟨mkBid "A", some 0⟩], some 1, some 0, 2⟩ ∧
    (⟨[some ⟨mkBid "B", none⟩, some ⟨mkBid "A", some 0⟩], some 1, some 0, 2⟩ :
        LinkedList).Remove "B"
      = some (⟨[none, some ⟨mkBid "A", none⟩], some 1, some 0, 1⟩, RemoveOutcome.removed) ∧
    (⟨[none, some ⟨mkBid "A", none⟩], some 1, some 0, 1⟩ : LinkedList).PrintList
      = some [mkBid "A"] ∧
    (⟨[none, some ⟨mkBid "A", none⟩], some 1, some 0, 1⟩ : LinkedList).tail ≠ some 1 ∧
    Heap.read [none, some ⟨mkBid "A", none⟩] (some 0) = none :=
  ⟨by decide, by decide, by decide, by decide, by decide⟩

/-- C16, evaluation of the code: `Append A; Remove "A"` reaches an empty list
(head `nullptr`, size 0) whose tail still holds address 0; `Prepend B` on it
sets head to the new node at address 1 and leaves tail at the deleted node. -/
theorem Prepend_on_emptied_list_keeps_tail :
    run [Call.append (mkBid "A"), Call.remove "A"] LinkedList.init
      = some ⟨[none], none, some 0, 0⟩ ∧
    (⟨[none], none, some 0, 0⟩ : LinkedList).Prepend (mkBid "B")
      = ⟨[none, some ⟨mkBid "B", none⟩], some 1, some 0, 1⟩ ∧
    (⟨[none, some ⟨mkBid "B", none⟩], some 1, some 0, 1⟩ : LinkedList).tail
      ≠ (⟨[none, some ⟨mkBid "B", none⟩], some 1, some 0, 1⟩ : LinkedList).head ∧
    Heap.read [none, some ⟨mkBid "B", none⟩] (some 0) = none :=
  ⟨by decide, by decide, by decide, by decide⟩

/-- C17: on a list whose traversal from head yields `bs`, the calls
`Search key`, `Size()` and `PrintList()` each return the object exactly as it
was (same store, head, tail and size, hence the same records), and a second
traversal prints the same records in the same order as the first. -/
theorem Queries_leave_list_unchanged (l : LinkedList) (key : String) (bs : List Bid)
    (hp : l.PrintList = some bs) :
    (∃ b, l.SearchCall key = some (l, b)) ∧
    l.SizeCall = (l, l.Size) ∧
    l.PrintListCall = some (l, bs) ∧
    (l.PrintListCall.bind (fun q => q.1.PrintListCall)) = some (l, bs) := by
  have hpc : l.PrintListCall = some (l, bs) := by
    rw [PrintListCall_eq, hp]
    rfl
  refine ⟨?_, rfl, hpc, ?_⟩
  · rw [SearchCall_eq, Search_of_PrintList key hp]
    exact ⟨_, rfl⟩
  · rw [hpc]
    exact hpc

/-- Witness for C17: the three read-only calls on `[C, A, B]`. -/
theorem Queries_leave_list_unchanged_witness :
    (∃ b, listCAB.SearchCall "A" = some (listCAB, b)) ∧
    listCAB.SizeCall = (listCAB, listCAB.Size) ∧
    listCAB.PrintListCall = some (listCAB, [mkBid "C", mkBid "A", mkBid "B"]) ∧
    (listCAB.PrintListCall.bind (fun q => q.1.PrintListCall))
      = some (listCAB, [mkBid "C", mkBid "A", mkBid "B"]) :=
  Queries_leave_list_unchanged listCAB "A" [mkBid "C", mkBid "A", mkBid "B"] (by decide)

/-- C18, evaluation of the code: after `Prepend A; Append B; Remove "B"` the
list and the sequence model agree on `[A]`, but the next `Append C` has no
defined result (tail points to the deleted node), while the sequence model
gives `[A, C]`. -/
theorem Run_does_not_refine_sequence_model :
    (∃ l, run [Call.prepend (mkBid "A"), Call.append (mkBid "B"), Call.remove "B"]
        LinkedList.init = some l ∧
      l.PrintList = some [mkBid "A"] ∧ l.heap.read l.tail = none ∧
      l.Append (mkBid "C") = none) ∧
    specRun [Call.prepend (mkBid "A"), Call.append (mkBid "B"), Call.remove "B"] []
      = [mkBid "A"] ∧
    run [Call.prepend (mkBid "A"), Call.append (mkBid "B"), Call.remove "B",
         Call.append (mkBid "C")] LinkedList.init = none ∧
    specRun [Call.prepend (mkBid "A"), Call.append (mkBid "B"), Call.remove "B",
         Call.append (mkBid "C")] [] = [mkBid "A", mkBid "C"] :=
  ⟨⟨⟨[some ⟨mkBid "A", none⟩, none], some 0, some 1, 1⟩,
      by decide, by decide, by decide, by decide⟩,
    by decide, by decide, by decide⟩

/-- C19: every sequence of `Append` and `Prepend` calls on the newly
constructed list is defined and ends in a well-formed list: head is `nullptr`
iff tail is `nullptr` iff the size is 0, tail is the last node reachable from
head and has no successor, and the size is the number of nodes reachable from
head, which the traversal visits. -/
theorem Inserts_keep_list_well_formed (cs : List Call)
    (hins : ∀ c ∈ cs, c.isInsert = true) :
    ∃ l, run cs LinkedList.init = some l ∧ WellFormed l ∧
      ∃ bs, l.PrintList = some bs ∧ l.Size = bs.length := by
  obtain ⟨l, hr, hw⟩ := run_inserts_WellFormed WellFormed_init hins
  exact ⟨l, hr, hw, hw.printList⟩

/-- Witness for C19: the calls `Append A; Append B; Prepend C`. -/
theorem Inserts_keep_list_well_formed_witness :
    run [Call.append (mkBid "A"), Call.append (mkBid "B"), Call.prepend (mkBid "C")]
      LinkedList.init = some listCAB ∧
    ∃ l, run [Call.append (mkBid "A"), Call.append (mkBid "B"), Call.prepend (mkBid "C")]
        LinkedList.init = some l ∧ WellFormed l ∧
      ∃ bs, l.PrintList = some bs ∧ l.Size = bs.length :=
  ⟨by decide,
    Inserts_keep_list_well_formed
      [Call.append (mkBid "A"), Call.append (mkBid "B"), Call.prepend (mkBid "C")]
      (by decide)⟩

/-- C20: on a list whose traversal from head yields `bs` and for a non-empty
`key`, the bid returned by `Search key` has an empty bidId exactly when no
record of `bs` has bidId `key`, and has bidId `key` when some record has it;
so the test `bid.bidId.empty()` in case 4 of `main` displays the first
matching record when there is one and prints "not found" otherwise. -/
theorem Search_empty_bidId_iff_absent (l : LinkedList) (key : String) (bs : List Bid)
    (hp : l.PrintList = some bs) (hk : key ≠ "") :
    ∃ b, l.Search key = some b ∧
      (b.bidId = "" ↔ ∀ x ∈ bs, x.bidId ≠ key) ∧
      ((∃ x ∈ bs, x.bidId = key) → b.bidId = key) ∧
      findCase l key = some (bs.find? (hasId key)) := by
  have hs := Search_of_PrintList key hp
  cases hf : bs.find? (hasId key) with
  | none =>
    have hno : ∀ x ∈ bs, x.bidId ≠ key := by
      intro x hx
      have := List.find?_eq_none.mp hf x hx
      simpa [hasId] using this
    rw [hf] at hs
    refine ⟨Bid.init, hs, ?_, ?_, ?_⟩
    · exact ⟨fun _ => hno, fun _ => rfl⟩
    · rintro ⟨x, hx, hxk⟩
      exact absurd hxk (hno x hx)
    · simp [findCase, hs, Bid.init]
  | some y =>
    have hy : y.bidId = key := by
      have := List.find?_some hf
      simpa [hasId] using this
    have hmem : y ∈ bs := List.mem_of_find?_eq_some hf
    rw [hf] at hs
    refine ⟨y, hs, ?_, fun _ => hy, ?_⟩
    · constructor
      · intro he
        rw [hy] at he
        exact absurd he hk
      · intro hno
        exact absurd hy (hno y hmem)
    · have hne : y.bidId ≠ "" := by
        rw [hy]
        exact hk
      simp [findCase, hs, hne]

/-- Witness for C20: in `[C, A, B]` the search for "A" is reported as found
and the search for "Z" as not found; for the empty key a stored record with
an empty bidId is returned and yet reported as not found. -/
theorem Search_empty_bidId_iff_absent_witness :
    (∃ b, listCAB.Search "A" = some b ∧
      (b.bidId = "" ↔ ∀ x ∈ [mkBid "C", mkBid "A", mkBid "B"], x.bidId ≠ "A") ∧
      ((∃ x ∈ [mkBid "C", mkBid "A", mkBid "B"], x.bidId = "A") → b.bidId = "A") ∧
      findCase listCAB "A" = some ([mkBid "C", mkBid "A", mkBid "B"].find? (hasId "A"))) ∧
    findCase listCAB "A" = some (some (mkBid "A")) ∧
    findCase listCAB "Z" = some none ∧
    (LinkedList.init.Prepend ⟨"", "untitled", "", 5⟩).Search ""
      = some ⟨"", "untitled", "", 5⟩ ∧
    findCase (LinkedList.init.Prepend ⟨"", "untitled", "", 5⟩) "" = some none :=
  ⟨Search_empty_bidId_iff_absent listCAB "A" [mkBid "C", mkBid "A", mkBid "B"]
      (by decide) (by decide),
    by decide, by decide, by decide, by decide⟩

end LinkedListCpp
